import Mathlib

/-!
openScale, arduino_mcu libraries: RunningMedian

Shallow embedding of `arduino_mcu/libraries/RunningMedian/RunningMedian.h`
(`template <typename T, int N> class RunningMedian`).

Modelling conventions
* The element type `T` is instantiated at the integers (`Int`).
* `uint8_t` fields and locals are natural numbers; every operation that can
  leave the range `0..255` carries an explicit `% 256`.
* `float` is the IEEE 754 single-precision format.  A `float` value is the
  rational number it denotes, and every operation that yields a `float` (the
  conversion of a sample or of a count, each `+=`, the division) is the exact
  rational operation followed by `fl32`, the rounding to the nearest number
  with a 24-bit significand, ties going to the even significand.  The exponent
  range is not modelled: a sum of at most 255 values of an integer type of up
  to 64 bits stays below `2 ^ 128`, and a non-zero quotient of such a sum by a
  count stays above `2 ^ -126`, so neither overflow nor a subnormal occurs.
* The arrays `_ar[N]` and `_as[N]` are lists of length `N`.  A store is
  `List.set`, a load is `List.getD · · 0`.
* An output parameter `T& value` is an extra argument (what the caller's
  variable held before the call) and an extra component of the result.
* `for` loops are left folds over the list of values the loop counter takes.
  Every loop counter stays at or below its bound, which is at most 255, so a
  counter carries no reduction.
-/

/-- The enum `STATUS {OK = 0, NOK = 1}`. -/
inductive STATUS where
  | OK
  | NOK
deriving DecidableEq, Repr

/-- Recursion behind `ilog2`, on a bound of the number of halvings. -/
def ilog2Aux : Nat → Nat → Nat
  | 0, _ => 0
  | fuel + 1, n => if n < 2 then 0 else ilog2Aux fuel (n / 2) + 1

/-- The position of the leading bit of `n`: the `a` with `2 ^ a ≤ n < 2 ^ (a + 1)`
for `n > 0`. -/
def ilog2 (n : Nat) : Nat := ilog2Aux n n

/-- The exponent of the last place of the single-precision numbers around the
positive rational `n / d`: with `e = expo n d`, `2 ^ (e + 23) ≤ n / d < 2 ^ (e + 24)`,
so that `n / d` lies between two neighbouring multiples of `2 ^ e` whose
significands have 24 bits. -/
def expo (n d : Nat) : Int :=
  (ilog2 n : Int) - (ilog2 d : Int) -
    (if n * 2 ^ ilog2 d < d * 2 ^ ilog2 n then 1 else 0) - 23

/-- The integer nearest to `num / den`; of two equally near ones, the even. -/
def nearestEven (num den : Nat) : Nat :=
  let k := num / den
  let r := num % den
  if 2 * r < den then k else if den < 2 * r then k + 1
  else if k % 2 = 0 then k else k + 1

/-- Rounding of the rational `z / d` to single precision, as a signed
significand `m` and an exponent `e`: the result is `m * 2 ^ e`. -/
def round32 (z : Int) (d : Nat) : Int × Int :=
  let n := z.natAbs
  if n = 0 then (0, 0)
  else
    let e := expo n d
    (z.sign * (nearestEven (n * 2 ^ (-e).toNat) (d * 2 ^ e.toNat) : Int), e)

/-- The `float` nearest to the rational `q` (round to nearest, ties to even):
what a conversion to `float` or a `float` operation with the exact result `q`
yields. -/
def fl32 (q : ℚ) : ℚ := ((round32 q.num q.den).1 : ℚ) * (2 : ℚ) ^ (round32 q.num q.den).2

/-- The loop `float sum = 0; for (x in l) sum += x;` over a list of samples:
each sample is converted to `float` and each addition is rounded. -/
def fsum (l : List Int) : ℚ := l.foldl (fun sum x => fl32 (sum + fl32 ((x : Int) : ℚ))) 0

/-- The data members of `RunningMedian<T, N>`. -/
structure RunningMedian where
  _size : Nat
  _cnt : Nat
  _idx : Nat
  _ar : List Int
  _as : List Int
deriving DecidableEq, Repr

namespace RunningMedian

/-- The method `clear()`: `_cnt = 0; _idx = 0;`. -/
def clear (s : RunningMedian) : RunningMedian :=
  { s with _cnt := 0, _idx := 0 }

/-- The constructor `RunningMedian()`: `_size = N; clear();`.  The arrays are
not initialised by the constructor: `a0 i` and `s0 i` are whatever slot `i` of
`_ar` and `_as` holds at that moment. -/
def construct (N : Nat) (a0 s0 : Nat → Int) : RunningMedian :=
  clear
    { _size := N % 256
      _cnt := 0
      _idx := 0
      _ar := (List.range N).map a0
      _as := (List.range N).map s0 }

/-- The method `add(T value)`:
`_ar[_idx++] = value; if (_idx >= _size) _idx = 0; if (_cnt < _size) _cnt++;`. -/
def add (s : RunningMedian) (value : Int) : RunningMedian :=
  let ar := s._ar.set s._idx value
  let idx := (s._idx + 1) % 256
  let idx := if idx ≥ s._size then 0 else idx
  let cnt := if s._cnt < s._size then (s._cnt + 1) % 256 else s._cnt
  { s with _ar := ar, _idx := idx, _cnt := cnt }

/-- A sequence of `add()` calls, first element first. -/
def addAll (s : RunningMedian) (values : List Int) : RunningMedian :=
  values.foldl add s

/-- First loop of `sort()`: `for (i = 0; i < _cnt; i++) _as[i] = _ar[i];`. -/
def copy (s : RunningMedian) : List Int :=
  (List.range s._cnt).foldl (fun sc i => sc.set i (s._ar.getD i 0)) s._as

/-- Inner loop of `sort()`:
`m = i; for (j = i+1; j < _cnt; j++) if (_as[j] < _as[m]) m = j;`. -/
def minIndex (sc : List Int) (cnt i : Nat) : Nat :=
  (List.range' (i + 1) (cnt - (i + 1))).foldl
    (fun m j => if sc.getD j 0 < sc.getD m 0 then j else m) i

/-- Body of the outer loop of `sort()`: find `m`, then
`if (m != i) { t = _as[m]; _as[m] = _as[i]; _as[i] = t; }`. -/
def sortStep (cnt : Nat) (sc : List Int) (i : Nat) : List Int :=
  let m := minIndex sc cnt i
  if m ≠ i then
    let t := sc.getD m 0
    (sc.set m (sc.getD i 0)).set i t
  else sc

/-- The private method `sort()`: copy, then
`for (i = 0; i < _cnt-1; i++) { ... }`. -/
def sort (s : RunningMedian) : RunningMedian :=
  { s with _as := (List.range (s._cnt - 1)).foldl (sortStep s._cnt) (copy s) }

/-- The method `getMedian(T& value)`. -/
def getMedian (s : RunningMedian) (value : Int) : STATUS × Int × RunningMedian :=
  if s._cnt > 0 then
    let s1 := sort s
    (STATUS.OK, s1._as.getD (s1._cnt / 2) 0, s1)
  else (STATUS.NOK, value, s)

/-- The method `getAverage(float &value)`:
`float sum = 0; for (i = 0; i < _cnt; i++) sum += _ar[i]; value = sum / _cnt;`.
`_ar[i]` and `_cnt` are converted to `float`, and the addition and the
division are `float` operations. -/
def getAverage (s : RunningMedian) (value : ℚ) : STATUS × ℚ × RunningMedian :=
  if s._cnt > 0 then
    let sum := (List.range s._cnt).foldl
      (fun sum i => fl32 (sum + fl32 ((s._ar.getD i 0 : Int) : ℚ))) 0
    (STATUS.OK, fl32 (sum / fl32 (s._cnt : ℚ)), s)
  else (STATUS.NOK, value, s)

/-- The clamp in `getAverage(uint8_t, float&)`:
`if (_cnt < nMedians) nMedians = _cnt;`. -/
def clamp (cnt nMedians : Nat) : Nat :=
  if cnt < nMedians then cnt else nMedians

/-- The local `uint8_t start = ((_cnt - nMedians)/2);` (after the clamp). -/
def start (cnt nMedians : Nat) : Nat :=
  ((cnt - nMedians) / 2) % 256

/-- The local `uint8_t stop = start + nMedians;`. -/
def stop (cnt nMedians : Nat) : Nat :=
  (start cnt nMedians + nMedians) % 256

/-- The method `getAverage(uint8_t nMedians, float &value)`: the clamp,
`start`, `stop`, `sort()`, then
`float sum = 0; for (i = start; i < stop; i++) sum += _as[i]; value = sum / nMedians;`,
with the same conversions and `float` operations as in `getAverage(float&)`. -/
def getAverageN (s : RunningMedian) (nMedians : Nat) (value : ℚ) :
    STATUS × ℚ × RunningMedian :=
  if s._cnt > 0 ∧ nMedians > 0 then
    let n := clamp s._cnt nMedians
    let s1 := sort s
    let sum := (List.range' (start s._cnt n) (stop s._cnt n - start s._cnt n)).foldl
      (fun sum i => fl32 (sum + fl32 ((s1._as.getD i 0 : Int) : ℚ))) 0
    (STATUS.OK, fl32 (sum / fl32 (n : ℚ)), s1)
  else (STATUS.NOK, value, s)

/-- The method `getHighest(T& value)`. -/
def getHighest (s : RunningMedian) (value : Int) : STATUS × Int × RunningMedian :=
  if s._cnt > 0 then
    let s1 := sort s
    (STATUS.OK, s1._as.getD (s1._cnt - 1) 0, s1)
  else (STATUS.NOK, value, s)

/-- The method `getLowest(T& value)`. -/
def getLowest (s : RunningMedian) (value : Int) : STATUS × Int × RunningMedian :=
  if s._cnt > 0 then
    let s1 := sort s
    (STATUS.OK, s1._as.getD 0 0, s1)
  else (STATUS.NOK, value, s)

/-- The method `getSize()`. -/
def getSize (s : RunningMedian) : Nat := s._size

/-- The method `getCount()`. -/
def getCount (s : RunningMedian) : Nat := s._cnt

/-- The method `getStatus()`: `_cnt > 0 ? OK : NOK`. -/
def getStatus (s : RunningMedian) : STATUS :=
  if s._cnt > 0 then STATUS.OK else STATUS.NOK

/-- The class invariant of a `RunningMedian<T, N>` with `1 ≤ N ≤ 255`:
`_size` is the capacity, both arrays have that many slots, `_cnt` does not
exceed it and `_idx` is a slot index. -/
def Valid (s : RunningMedian) : Prop :=
  1 ≤ s._size ∧ s._size ≤ 255 ∧ s._ar.length = s._size ∧ s._as.length = s._size ∧
    s._cnt ≤ s._size ∧ s._idx < s._size

instance (s : RunningMedian) : Decidable (Valid s) := by
  unfold Valid; infer_instance

/-- The valid samples: the slots `_ar[0 .. _cnt)` that every query reads. -/
def samples (s : RunningMedian) : List Int := s._ar.take s._cnt

/-- The ascending sort of the valid samples. -/
def sorted (s : RunningMedian) : List Int := (samples s).insertionSort (· ≤ ·)

/-- The retained samples in insertion order, oldest first: the filled prefix
while the buffer is filling, the ring read from the write cursor once it is
full. -/
def window (s : RunningMedian) : List Int :=
  if s._cnt < s._size then s._ar.take s._cnt else s._ar.drop s._idx ++ s._ar.take s._idx

/-- What holds of the state reached by adding the samples `l`, in order, to an
empty container. -/
def Ring (s : RunningMedian) (l : List Int) : Prop :=
  Valid s ∧ (s._cnt < s._size → s._idx = s._cnt) ∧ s._cnt = min l.length s._size ∧
    window s = l.drop (l.length - s._size)

/-- Invariant of the outer loop of `sort()` before the iteration for `k`:
the scratch array is a rearrangement of what the copy loop left, nothing at
or beyond slot `cnt` was touched, and every slot below `k` holds a value that
is at most every later value within the first `cnt` slots. -/
def SortInv (cnt : Nat) (sc0 sc : List Int) (k : Nat) : Prop :=
  sc.length = sc0.length ∧ sc.Perm sc0 ∧ sc.drop cnt = sc0.drop cnt ∧
    ∀ a b, a < k → a ≤ b → b < cnt → sc.getD a 0 ≤ sc.getD b 0

/-- The states of a `RunningMedian<T, N>` that a program can reach: the
constructed one, and what `add()`, `clear()` and the queries that run `sort()`
make of a reachable one (`getAverage()`, `getSize()`, `getCount()` and
`getStatus()` leave the state as it is). -/
inductive Reachable (N : Nat) : RunningMedian → Prop where
  | construct (a0 s0 : Nat → Int) : Reachable N (construct N a0 s0)
  | add (s : RunningMedian) (value : Int) : Reachable N s → Reachable N (add s value)
  | clear (s : RunningMedian) : Reachable N s → Reachable N (clear s)
  | getMedian (s : RunningMedian) (value : Int) :
      Reachable N s → Reachable N (getMedian s value).2.2
  | getAverage (s : RunningMedian) (value : ℚ) :
      Reachable N s → Reachable N (getAverage s value).2.2
  | getAverageN (s : RunningMedian) (nMedians : Nat) (value : ℚ) :
      Reachable N s → Reachable N (getAverageN s nMedians value).2.2
  | getHighest (s : RunningMedian) (value : Int) :
      Reachable N s → Reachable N (getHighest s value).2.2
  | getLowest (s : RunningMedian) (value : Int) :
      Reachable N s → Reachable N (getLowest s value).2.2

/-- The reachable states together with the samples added since the
construction or the last `clear()`, oldest first. -/
inductive History (N : Nat) : List Int → RunningMedian → Prop where
  | construct (a0 s0 : Nat → Int) : History N [] (construct N a0 s0)
  | add (l : List Int) (s : RunningMedian) (value : Int) :
      History N l s → History N (l ++ [value]) (add s value)
  | clear (l : List Int) (s : RunningMedian) : History N l s → History N [] (clear s)
  | getMedian (l : List Int) (s : RunningMedian) (value : Int) :
      History N l s → History N l (getMedian s value).2.2
  | getAverage (l : List Int) (s : RunningMedian) (value : ℚ) :
      History N l s → History N l (getAverage s value).2.2
  | getAverageN (l : List Int) (s : RunningMedian) (nMedians : Nat) (value : ℚ) :
      History N l s → History N l (getAverageN s nMedians value).2.2
  | getHighest (l : List Int) (s : RunningMedian) (value : Int) :
      History N l s → History N l (getHighest s value).2.2
  | getLowest (l : List Int) (s : RunningMedian) (value : Int) :
      History N l s → History N l (getLowest s value).2.2

end RunningMedian

/-! ## DS3232RTC and I2C_eeprom

Embedding of `arduino_mcu/libraries/DS3232RTC/DS3232RTC.cpp` and
`arduino_mcu/libraries/I2C_eeprom/I2C_eeprom.cpp`.  The I2C bus is outside the
program: what a method sends is part of its result, and what the bus answers
(a byte read, the status of a transmission) is an argument.  `byte` and
`uint8_t` are natural numbers reduced `% 256`, `uint16_t` ones `% 65536`.
-/

/-- The C++ shift `a << n` of `int` operands, `int` being 16 bits wide on the
AVR targets of these libraries: it has a value only for a count in 0..15. -/
def shl (a : Nat) (n : Int) : Option Nat :=
  if 0 ≤ n ∧ n < 16 then some (a <<< n.toNat) else none

namespace DS3232RTC

/-- `#define ALM1_SECONDS 0x07`. -/
def ALM1_SECONDS : Nat := 0x07

/-- `#define ALM2_MINUTES 0x0B`. -/
def ALM2_MINUTES : Nat := 0x0B

/-- `#define RTC_CONTROL 0x0E`. -/
def RTC_CONTROL : Nat := 0x0E

/-- `#define A1M1 7`. -/
def A1M1 : Nat := 7

/-- `#define A1M2 7`. -/
def A1M2 : Nat := 7

/-- `#define A1M3 7`. -/
def A1M3 : Nat := 7

/-- `#define A1M4 7`. -/
def A1M4 : Nat := 7

/-- `#define A1IE 0`. -/
def A1IE : Nat := 0

/-- `#define DYDT 6`, commented in the header as the
"Day/Date flag bit in alarm Day/Date registers". -/
def DYDT : Nat := 6

/-- The avr-libc macro `_BV(bit)`, which is `(1 << (bit))`. -/
def _BV (bit : Nat) : Nat := 1 <<< bit

/-- The method `dec2bcd(uint8_t n)`: `return n + 6 * (n / 10);`. -/
def dec2bcd (n : Nat) : Nat := (n + 6 * (n / 10)) % 256

/-- The method `bcd2dec(uint8_t n)`: `return n - 6 * (n >> 4);`. -/
def bcd2dec (n : Nat) : Nat := (n - 6 * (n >>> 4)) % 256

/-- One call `writeRTC(addr, value)`: the register address and the byte that
are sent to the RTC. -/
abbrev RegWrite := Nat × Nat

/-- The method `setAlarm(alarmType, seconds, minutes, hours, daydate)`: the
calls of `writeRTC` it makes, in order (it drops what they return). -/
def setAlarm (alarmType seconds minutes hours daydate : Nat) : List RegWrite :=
  let seconds := dec2bcd seconds
  let minutes := dec2bcd minutes
  let hours := dec2bcd hours
  let daydate := dec2bcd daydate
  let seconds := if alarmType &&& 0x01 ≠ 0 then (seconds ||| _BV A1M1) % 256 else seconds
  let minutes := if alarmType &&& 0x02 ≠ 0 then (minutes ||| _BV A1M2) % 256 else minutes
  let hours := if alarmType &&& 0x04 ≠ 0 then (hours ||| _BV A1M3) % 256 else hours
  let hours := if alarmType &&& 0x10 ≠ 0 then (hours ||| _BV DYDT) % 256 else hours
  let daydate := if alarmType &&& 0x08 ≠ 0 then (daydate ||| _BV A1M4) % 256 else daydate
  if alarmType &&& 0x80 = 0 then
    let addr := ALM1_SECONDS
    [(addr, seconds), ((addr + 1) % 256, minutes), ((addr + 2) % 256, hours),
      ((addr + 3) % 256, daydate)]
  else
    let addr := ALM2_MINUTES
    [(addr, minutes), ((addr + 1) % 256, hours), ((addr + 2) % 256, daydate)]

/-- The method `alarmInterrupt(alarmNumber, interruptEnabled)`: `controlReg`
is what `readRTC(RTC_CONTROL)` returned, the result is the call of `writeRTC`
it ends with.  The mask is `_BV(A1IE) << (alarmNumber - 1)` stored in a
`uint8_t`; `~mask` is the 16-bit complement. -/
def alarmInterrupt (alarmNumber : Nat) (interruptEnabled : Bool) (controlReg : Nat) :
    Option RegWrite :=
  match shl (_BV A1IE) ((alarmNumber : Int) - 1) with
  | none => none
  | some m =>
    let mask := m % 256
    let controlReg :=
      if interruptEnabled then (controlReg ||| mask) % 256
      else (controlReg &&& (0xFFFF ^^^ mask)) % 256
    some (RTC_CONTROL, controlReg)

end DS3232RTC

namespace I2C_eeprom

/-- `#define I2C_EEPROM_PAGESIZE 64`. -/
def I2C_EEPROM_PAGESIZE : Nat := 64

/-- `#define I2C_TWIBUFFERSIZE 30`. -/
def I2C_TWIBUFFERSIZE : Nat := 30

/-- One bus transmission of `_WriteBlock`: the 16-bit memory address it sends
(as the two bytes `address >> 8`, `address & 0xFF`) and the data bytes that
follow. -/
abbrev Transmission := Nat × List Nat

/-- The method `_WriteBlock(address, buffer, length)` as the `k`-th
transmission on the bus: it sends the address and `buffer[0 .. length)` and
returns the status `Wire.endTransmission()` gives, `ack k`.  The wait in
`waitEEReady()` is a matter of time and has no part here. -/
def _WriteBlock (ack : Nat → Nat) (k address : Nat) (buffer : List Nat) (length : Nat) :
    Nat × Transmission :=
  (ack k, (address, buffer.take length))

/-- The loop of `_pageBlock`, `k` transmissions having been made before:
the value returned and the transmissions made, or `none` when `fuel`
iterations did not end it. -/
def _pageBlockLoop (ack : Nat → Nat) (incrBuffer : Bool) :
    Nat → Nat → Nat → List Nat → Nat → Option (Nat × List Transmission)
  | 0, _, _, _, length => if length > 0 then none else some (0, [])
  | fuel + 1, k, address, buffer, length =>
    if length > 0 then
      let bytesUntilPageBoundary := (I2C_EEPROM_PAGESIZE - address % I2C_EEPROM_PAGESIZE) % 256
      let cnt := (min length bytesUntilPageBoundary) % 256
      let cnt := (min cnt I2C_TWIBUFFERSIZE) % 256
      let r := _WriteBlock ack k address buffer cnt
      if r.1 ≠ 0 then some (r.1, [r.2])
      else
        match _pageBlockLoop ack incrBuffer fuel (k + 1) ((address + cnt) % 65536)
            (if incrBuffer then buffer.drop cnt else buffer) (length - cnt) with
        | none => none
        | some (rv, sent) => some (rv, r.2 :: sent)
    else some (0, [])

/-- The method `_pageBlock(address, buffer, length, incrBuffer)`; every
iteration takes at least one byte off `length`, so `length` iterations are
allowed for. -/
def _pageBlock (ack : Nat → Nat) (address : Nat) (buffer : List Nat) (length : Nat)
    (incrBuffer : Bool) : Option (Nat × List Transmission) :=
  _pageBlockLoop ack incrBuffer length 0 address buffer length

/-- The method `setBlock(address, data, length)`. -/
def setBlock (ack : Nat → Nat) (address data length : Nat) :
    Option (Nat × List Transmission) :=
  let buffer := List.replicate I2C_TWIBUFFERSIZE data
  _pageBlock ack address buffer length false

/-- The method `writeBlock(address, buffer, length)`. -/
def writeBlock (ack : Nat → Nat) (address : Nat) (buffer : List Nat) (length : Nat) :
    Option (Nat × List Transmission) :=
  _pageBlock ack address buffer length true

/-- The length `cnt` of the transmission `_pageBlock` makes for a request of
`length > 0` bytes at `address`, in closed form. -/
def chunk (address length : Nat) : Nat :=
  min (min length (I2C_EEPROM_PAGESIZE - address % I2C_EEPROM_PAGESIZE)) I2C_TWIBUFFERSIZE

/-- Whether the transmissions follow one another in memory from `address` on:
each starts where the one before it ended (mod 2^16). -/
def contiguous : Nat → List Transmission → Bool
  | _, [] => true
  | address, t :: sent =>
    t.1 == address && contiguous ((address + t.2.length) % 65536) sent

/-- The memory cells a transmission is for: byte `i` of its data goes to the
cell `address + i`. -/
def cells (t : Transmission) : List (Nat × Nat) :=
  (List.range' t.1 t.2.length).zip t.2

/-- The scan loop of `determineSize()`: `readBack i` is what
`readByte(addr1)` returns in iteration `i`; the loop sets `rv = i` and leaves
at the first `i` that reads back `0x55`.  The result is `rv` after the loop. -/
def scan (readBack : Nat → Nat) : Nat :=
  ((List.range 8).foldl
    (fun (st : Nat × Bool) i => if st.2 then st else (i, readBack i == 0x55)) (0, false)).1

/-- The method `determineSize()`: `return 0x01 << (rv-1);` as a `uint8_t`.
The reads before the scan and the writes after it do not touch `rv`. -/
def determineSize (readBack : Nat → Nat) : Option Nat :=
  (shl 0x01 ((scan readBack : Int) - 1)).map (· % 256)

end I2C_eeprom

namespace RunningMedian

/-! ## The mutators `clear` and `add` -/

theorem valid_construct (N : Nat) (a0 s0 : Nat → Int) (h1 : 1 ≤ N) (h2 : N ≤ 255) :
    Valid (construct N a0 s0) := by
  have h : N % 256 = N := Nat.mod_eq_of_lt (by omega)
  simp [Valid, construct, clear, h]
  omega

theorem valid_clear (s : RunningMedian) (h : Valid s) : Valid (clear s) := by
  obtain ⟨h1, h2, h3, h4, _, _⟩ := h
  exact ⟨h1, h2, h3, h4, Nat.zero_le _, h1⟩

theorem add_size (s : RunningMedian) (v : Int) : (add s v)._size = s._size := rfl

theorem add_as (s : RunningMedian) (v : Int) : (add s v)._as = s._as := rfl

theorem add_ar (s : RunningMedian) (v : Int) : (add s v)._ar = s._ar.set s._idx v := rfl

theorem add_cnt (s : RunningMedian) (v : Int) (h : Valid s) :
    (add s v)._cnt = min (s._cnt + 1) s._size := by
  obtain ⟨h1, h2, h3, h4, h5, h6⟩ := h
  simp only [add]
  split
  · rw [Nat.mod_eq_of_lt (by omega)]; omega
  · omega

theorem add_idx (s : RunningMedian) (v : Int) (h : Valid s) :
    (add s v)._idx = if s._idx + 1 = s._size then 0 else s._idx + 1 := by
  obtain ⟨h1, h2, h3, h4, h5, h6⟩ := h
  simp only [add]
  rw [Nat.mod_eq_of_lt (by omega)]
  by_cases h : s._idx + 1 = s._size
  · simp [h]
  · rw [if_neg (by omega), if_neg h]

theorem valid_add (s : RunningMedian) (v : Int) (h : Valid s) : Valid (add s v) := by
  have hc := add_cnt s v h
  have hi := add_idx s v h
  obtain ⟨h1, h2, h3, h4, h5, h6⟩ := h
  refine ⟨h1, h2, ?_, h4, ?_, ?_⟩
  · simp [add_ar, add_size, h3]
  · rw [hc, add_size]; omega
  · rw [hi, add_size]; split <;> omega

theorem addAll_snoc (s : RunningMedian) (l : List Int) (v : Int) :
    addAll s (l ++ [v]) = add (addAll s l) v := by
  simp [addAll, List.foldl_append]

theorem valid_addAll (s : RunningMedian) (l : List Int) (h : Valid s) :
    Valid (addAll s l) := by
  induction l using List.reverseRecOn with
  | nil => exact h
  | append_singleton l v ih => rw [addAll_snoc]; exact valid_add _ _ ih

theorem addAll_size (s : RunningMedian) (l : List Int) : (addAll s l)._size = s._size := by
  induction l using List.reverseRecOn with
  | nil => rfl
  | append_singleton l v ih => rw [addAll_snoc, add_size, ih]

theorem addAll_cnt (s : RunningMedian) (l : List Int) (h : Valid s) :
    (addAll s l)._cnt = min (s._cnt + l.length) s._size := by
  induction l using List.reverseRecOn with
  | nil => simp [addAll]; exact h.2.2.2.2.1
  | append_singleton l v ih =>
    rw [addAll_snoc, add_cnt _ _ (valid_addAll s l h), ih, addAll_size]
    simp only [List.length_append, List.length_singleton]
    omega

/-! ## The ring buffer -/

theorem take_succ_set (l : List Int) (i : Nat) (v : Int) (h : i < l.length) :
    (l.set i v).take (i + 1) = l.take i ++ [v] := by
  induction l generalizing i with
  | nil => simp at h
  | cons a t ih =>
    cases i with
    | zero => simp
    | succ i =>
      simp only [List.length_cons, Nat.add_lt_add_iff_right] at h
      simp [ih i h]

theorem drop_succ_set (l : List Int) (i : Nat) (v : Int) :
    (l.set i v).drop (i + 1) = l.drop (i + 1) := by
  rw [List.drop_set, if_pos (Nat.lt_succ_self i)]

theorem ring_empty (s : RunningMedian) (h : Valid s) (hc : s._cnt = 0) (hi : s._idx = 0) :
    Ring s [] := by
  refine ⟨h, fun _ => by omega, by simp [hc], ?_⟩
  have h1 := h.1
  simp [window, hc, hi]
  omega

theorem ring_add (s : RunningMedian) (l : List Int) (v : Int) (h : Ring s l) :
    Ring (add s v) (l ++ [v]) := by
  obtain ⟨hv, hfill, hcnt, hwin⟩ := h
  have hc := add_cnt s v hv
  have hi := add_idx s v hv
  have hv1 := valid_add s v hv
  obtain ⟨h1, h2, h3, h4, h5, h6⟩ := hv
  refine ⟨hv1, ?_, ?_, ?_⟩
  · intro hlt
    rw [add_size, hc] at hlt
    have : s._cnt < s._size := by omega
    have := hfill this
    rw [hi, hc, if_neg (by omega)]
    omega
  · rw [hc, add_size]
    simp only [List.length_append, List.length_singleton]
    omega
  · by_cases hlt : s._cnt < s._size
    · have hidx := hfill hlt
      have hlen : l.length = s._cnt := by omega
      have hw : s._ar.take s._cnt = l := by
        have := hwin
        rw [window, if_pos hlt, hlen, Nat.sub_eq_zero_of_le h5] at this
        simpa using this
      have hd : (l ++ [v]).length - s._size = 0 := by
        simp only [List.length_append, List.length_singleton]; omega
      have ht : (s._ar.set s._cnt v).take (s._cnt + 1) = l ++ [v] := by
        rw [take_succ_set _ _ _ (by omega), hw]
      rw [add_size, hd, List.drop_zero]
      unfold window
      rw [hc, hi, add_size, add_ar, hidx]
      by_cases hfull : s._cnt + 1 = s._size
      · rw [if_neg (by omega), if_pos hfull]
        rw [← ht]
        simp only [List.drop_zero, List.take_zero, List.append_nil]
        rw [List.take_of_length_le (by simp; omega)]
      · rw [if_pos (by omega), Nat.min_eq_left (by omega), ht]
    · have hfull : s._cnt = s._size := by omega
      have hlen : s._size ≤ l.length := by omega
      have hw : s._ar.drop s._idx ++ s._ar.take s._idx = l.drop (l.length - s._size) := by
        have := hwin
        rwa [window, if_neg hlt] at this
      have hd : (l ++ [v]).length - s._size = (l.length - s._size) + 1 := by
        simp only [List.length_append, List.length_singleton]; omega
      have hgoal : (l ++ [v]).drop ((l.length - s._size) + 1) =
          s._ar.drop (s._idx + 1) ++ (s._ar.take s._idx ++ [v]) := by
        rw [List.drop_append_of_le_length (by omega), ← List.drop_drop, ← hw]
        rw [List.drop_append_of_le_length (by simp; omega), List.drop_drop]
        simp [Nat.add_comm]
      rw [add_size, hd, hgoal]
      unfold window
      rw [hc, hi, add_size, add_ar, if_neg (by omega)]
      by_cases hwrap : s._idx + 1 = s._size
      · rw [if_pos hwrap]
        simp only [List.drop_zero, List.take_zero, List.append_nil]
        rw [List.drop_of_length_le (by omega), List.nil_append,
          ← take_succ_set _ _ _ (by omega), List.take_of_length_le (by simp; omega)]
      · rw [if_neg hwrap, drop_succ_set, take_succ_set _ _ _ (by omega)]

theorem ring_addAll (s : RunningMedian) (l : List Int) (h : Valid s) (hc : s._cnt = 0)
    (hi : s._idx = 0) : Ring (addAll s l) l := by
  induction l using List.reverseRecOn with
  | nil => exact ring_empty s h hc hi
  | append_singleton l v ih => rw [addAll_snoc]; exact ring_add _ _ _ ih

theorem samples_perm_window (s : RunningMedian) (h : Valid s) :
    (samples s).Perm (window s) := by
  obtain ⟨h1, h2, h3, h4, h5, h6⟩ := h
  unfold samples window
  split
  · exact List.Perm.refl _
  · rw [List.take_of_length_le (by omega)]
    conv_lhs => rw [← List.take_append_drop s._idx s._ar]
    exact List.perm_append_comm

theorem samples_addAll (s : RunningMedian) (l : List Int) (h : Valid s) (hc : s._cnt = 0)
    (hi : s._idx = 0) :
    (samples (addAll s l)).Perm (l.drop (l.length - min l.length s._size)) := by
  obtain ⟨hv, _, _, hwin⟩ := ring_addAll s l h hc hi
  have hp := samples_perm_window _ hv
  rw [hwin, addAll_size] at hp
  have : l.length - min l.length s._size = l.length - s._size := by omega
  rw [this]
  exact hp

/-! ## The private method `sort` -/

theorem getD_set (l : List Int) (a j : Nat) (x : Int) (ha : a < l.length) :
    (l.set a x).getD j 0 = if a = j then x else l.getD j 0 := by
  simp only [List.getD_eq_getElem?_getD, List.getElem?_set, ha, if_true]
  split <;> simp

theorem getD_of_lt (l : List Int) (j : Nat) (h : j < l.length) : l.getD j 0 = l[j] := by
  simp [List.getD_eq_getElem?_getD, List.getElem?_eq_getElem h]

theorem copyLoop_eq (ar sc : List Int) (k : Nat) (h1 : k ≤ ar.length) (h2 : k ≤ sc.length) :
    (List.range k).foldl (fun sc i => sc.set i (ar.getD i 0)) sc = ar.take k ++ sc.drop k := by
  induction k with
  | zero => simp
  | succ k ih =>
    rw [List.range_succ, List.foldl_append, ih (by omega) (by omega)]
    simp only [List.foldl_cons, List.foldl_nil]
    rw [List.set_append_right _ _ (by simp)]
    have hk : k - (List.take k ar).length = 0 := by simp; omega
    rw [hk, getD_of_lt _ _ (by omega)]
    have hd : sc.drop k = sc[k] :: sc.drop (k + 1) := by
      rw [List.drop_eq_getElem_cons (by omega)]
    rw [hd, List.set_cons_zero]
    have ht : ar.take (k + 1) = ar.take k ++ [ar[k]] := by
      rw [List.take_succ, List.getElem?_eq_getElem (by omega)]; rfl
    rw [ht, List.append_assoc]; rfl

theorem copy_eq (s : RunningMedian) (h : Valid s) :
    copy s = samples s ++ s._as.drop s._cnt := by
  obtain ⟨h1, h2, h3, h4, h5, h6⟩ := h
  exact copyLoop_eq _ _ _ (by omega) (by omega)

theorem minLoop_spec (sc : List Int) (i n : Nat) :
    let m := (List.range' (i + 1) n).foldl
      (fun m j => if sc.getD j 0 < sc.getD m 0 then j else m) i
    i ≤ m ∧ m < i + 1 + n ∧ ∀ j, i ≤ j → j < i + 1 + n → sc.getD m 0 ≤ sc.getD j 0 := by
  induction n with
  | zero =>
    simp only [List.range'_zero, List.foldl_nil]
    refine ⟨le_refl _, by omega, ?_⟩
    intro j h1 h2
    have : j = i := by omega
    rw [this]
  | succ n ih =>
    simp only [List.range'_concat, List.foldl_append, List.foldl_cons, List.foldl_nil,
      Nat.one_mul]
    obtain ⟨ih1, ih2, ih3⟩ := ih
    split
    · rename_i hlt
      refine ⟨by omega, by omega, ?_⟩
      intro j h1 h2
      by_cases hj : j = i + 1 + n
      · rw [hj]
      · exact le_trans (le_of_lt hlt) (ih3 j h1 (by omega))
    · rename_i hge
      refine ⟨ih1, by omega, ?_⟩
      intro j h1 h2
      by_cases hj : j = i + 1 + n
      · rw [hj]; exact not_lt.mp hge
      · exact ih3 j h1 (by omega)

theorem minIndex_spec (sc : List Int) (cnt i : Nat) (h : i < cnt) :
    i ≤ minIndex sc cnt i ∧ minIndex sc cnt i < cnt ∧
      ∀ j, i ≤ j → j < cnt → sc.getD (minIndex sc cnt i) 0 ≤ sc.getD j 0 := by
  have := minLoop_spec sc i (cnt - (i + 1))
  have e : i + 1 + (cnt - (i + 1)) = cnt := by omega
  rw [e] at this
  exact this

theorem swap_perm (l : List Int) (i m : Nat) (hi : i < l.length) (hm : m < l.length)
    (hne : m ≠ i) : ((l.set m (l.getD i 0)).set i (l.getD m 0)).Perm l := by
  rw [List.perm_iff_count]
  intro b
  rw [getD_of_lt _ _ hi, getD_of_lt _ _ hm]
  rw [List.count_set _ _ _ _ (by simpa using hi), List.count_set _ _ _ _ hm,
    List.getElem_set_ne hne]
  have hmem : (if l[m] == b then 1 else 0) ≤ l.count b := by
    split
    · rename_i hb
      have : l[m] = b := by simpa using hb
      rw [← this]
      exact List.one_le_count_iff.mpr (List.getElem_mem _)
    · exact Nat.zero_le _
  generalize (if l[m] == b then 1 else 0) = x at hmem ⊢
  generalize (if l[i] == b then 1 else 0) = y
  omega

theorem sortStep_length (cnt : Nat) (sc : List Int) (i : Nat) :
    (sortStep cnt sc i).length = sc.length := by
  unfold sortStep
  simp only
  split <;> simp

theorem sortStep_perm (cnt : Nat) (sc : List Int) (i : Nat) (hi : i < cnt)
    (hc : cnt ≤ sc.length) : (sortStep cnt sc i).Perm sc := by
  obtain ⟨_, hm, _⟩ := minIndex_spec sc cnt i hi
  unfold sortStep
  simp only
  split
  · rename_i hne
    exact swap_perm sc i _ (by omega) (by omega) hne
  · exact List.Perm.refl _

theorem sortStep_drop (cnt : Nat) (sc : List Int) (i : Nat) (hi : i < cnt) :
    (sortStep cnt sc i).drop cnt = sc.drop cnt := by
  obtain ⟨_, hm, _⟩ := minIndex_spec sc cnt i hi
  unfold sortStep
  simp only
  split
  · rw [List.drop_set, if_pos hi, List.drop_set, if_pos hm]
  · rfl

/-- What slot `j` holds after the body of the outer loop ran for `i`. -/
theorem sortStep_getD (cnt : Nat) (sc : List Int) (i j : Nat) (hi : i < cnt)
    (hc : cnt ≤ sc.length) :
    (sortStep cnt sc i).getD j 0 =
      if j = i then sc.getD (minIndex sc cnt i) 0
      else if j = minIndex sc cnt i then sc.getD i 0 else sc.getD j 0 := by
  obtain ⟨_, hm, _⟩ := minIndex_spec sc cnt i hi
  unfold sortStep
  simp only
  split
  · rename_i hne
    rw [getD_set _ _ _ _ (by simp; omega), getD_set _ _ _ _ (by omega)]
    by_cases h1 : j = i
    · simp [h1]
    · by_cases h2 : j = minIndex sc cnt i
      · rw [if_neg (fun h => h1 h.symm), if_pos h2.symm, if_neg h1, if_pos h2]
      · rw [if_neg (fun h => h1 h.symm), if_neg (fun h => h2 h.symm), if_neg h1, if_neg h2]
  · rename_i heq
    have heq : minIndex sc cnt i = i := by simpa using heq
    by_cases h1 : j = i
    · simp [h1, heq]
    · rw [if_neg h1, heq, if_neg h1]

theorem sortInv_step (cnt : Nat) (sc0 sc : List Int) (k : Nat) (hk : k < cnt)
    (hc : cnt ≤ sc0.length) (h : SortInv cnt sc0 sc k) :
    SortInv cnt sc0 (sortStep cnt sc k) (k + 1) := by
  obtain ⟨hl, hp, hd, hs⟩ := h
  have hc1 : cnt ≤ sc.length := by omega
  obtain ⟨hm1, hm2, hm3⟩ := minIndex_spec sc cnt k hk
  refine ⟨by rw [sortStep_length, hl], (sortStep_perm cnt sc k hk hc1).trans hp,
    by rw [sortStep_drop cnt sc k hk, hd], ?_⟩
  intro a b ha hab hb
  rw [sortStep_getD cnt sc k a hk hc1, sortStep_getD cnt sc k b hk hc1]
  by_cases hak : a = k
  · rw [if_pos hak]
    split
    · exact le_refl _
    · split
      · exact hm3 k (le_refl _) hk
      · exact hm3 b (by omega) hb
  · have hak1 : a < k := by omega
    rw [if_neg hak, if_neg (by omega)]
    split
    · exact hs a _ hak1 (by omega) hm2
    · split
      · exact hs a k hak1 (by omega) hk
      · exact hs a b hak1 hab hb

theorem sortInv_loop (cnt : Nat) (sc0 : List Int) (n : Nat) (hn : n ≤ cnt - 1)
    (hc : cnt ≤ sc0.length) :
    SortInv cnt sc0 ((List.range n).foldl (sortStep cnt) sc0) n := by
  induction n with
  | zero =>
    refine ⟨rfl, List.Perm.refl _, rfl, ?_⟩
    intro a b ha
    omega
  | succ n ih =>
    rw [List.range_succ, List.foldl_append]
    exact sortInv_step cnt sc0 _ n (by omega) hc (ih (by omega))

theorem samples_length (s : RunningMedian) (h : Valid s) : (samples s).length = s._cnt := by
  obtain ⟨h1, h2, h3, h4, h5, h6⟩ := h
  simp [samples]; omega

theorem sorted_length (s : RunningMedian) (h : Valid s) : (sorted s).length = s._cnt := by
  rw [sorted, List.length_insertionSort, samples_length s h]

theorem sorted_perm (s : RunningMedian) : (sorted s).Perm (samples s) :=
  List.perm_insertionSort _ _

theorem sorted_sorted (s : RunningMedian) : List.Sorted (· ≤ ·) (sorted s) :=
  List.sorted_insertionSort _ _

theorem sort_cnt (s : RunningMedian) : (sort s)._cnt = s._cnt := rfl

theorem sort_ar (s : RunningMedian) : (sort s)._ar = s._ar := rfl

theorem sort_idx (s : RunningMedian) : (sort s)._idx = s._idx := rfl

theorem sort_size (s : RunningMedian) : (sort s)._size = s._size := rfl

theorem copy_drop (s : RunningMedian) (h : Valid s) :
    (copy s).drop s._cnt = s._as.drop s._cnt := by
  rw [copy_eq s h]
  have e := samples_length s h
  rw [List.drop_append_of_le_length (by omega), List.drop_of_length_le (by omega)]
  rfl

theorem sort_inv (s : RunningMedian) (h : Valid s) :
    SortInv s._cnt (copy s) (sort s)._as (s._cnt - 1) := by
  have hc := copy_eq s h
  have hs := samples_length s h
  obtain ⟨h1, h2, h3, h4, h5, h6⟩ := h
  refine sortInv_loop s._cnt (copy s) (s._cnt - 1) (le_refl _) ?_
  rw [hc]; simp [hs]

/-- The scratch array after `sort()`: its first `_cnt` slots are the ascending
sort of the valid samples. -/
theorem sort_take (s : RunningMedian) (h : Valid s) :
    (sort s)._as.take s._cnt = sorted s := by
  obtain ⟨hl, hp, hd, hs⟩ := sort_inv s h
  have hc := copy_eq s h
  have hsl := samples_length s h
  have hlen : s._cnt ≤ (sort s)._as.length := by
    rw [hl, hc]; simp [hsl]
  have hperm : ((sort s)._as.take s._cnt).Perm (samples s) := by
    have e1 : (sort s)._as = (sort s)._as.take s._cnt ++ (copy s).drop s._cnt := by
      rw [← hd, List.take_append_drop]
    have e2 : copy s = samples s ++ (copy s).drop s._cnt := by
      rw [copy_drop s h]; exact hc
    rw [e1] at hp
    conv at hp => rhs; rw [e2]
    exact (List.perm_append_right_iff _).mp hp
  have hsorted : List.Sorted (· ≤ ·) ((sort s)._as.take s._cnt) := by
    rw [List.Sorted, List.pairwise_iff_getElem]
    intro a b ha hb hab
    simp only [List.length_take] at ha hb
    rw [List.getElem_take, List.getElem_take, ← getD_of_lt _ a (by omega),
      ← getD_of_lt _ b (by omega)]
    exact hs a b (by omega) (by omega) (by omega)
  exact List.eq_of_perm_of_sorted (hperm.trans (sorted_perm s).symm) hsorted (sorted_sorted s)

theorem sort_drop (s : RunningMedian) (h : Valid s) :
    (sort s)._as.drop s._cnt = s._as.drop s._cnt := by
  obtain ⟨hl, hp, hd, hs⟩ := sort_inv s h
  rw [hd, copy_drop s h]

/-- A load from one of the first `_cnt` slots of the sorted scratch array. -/
theorem sort_getD (s : RunningMedian) (h : Valid s) (j : Nat) (hj : j < s._cnt) :
    (sort s)._as.getD j 0 = (sorted s).getD j 0 := by
  rw [← sort_take s h]
  simp only [List.getD_eq_getElem?_getD, List.getElem?_take, if_pos hj]

/-! ## Single-precision rounding -/

theorem ilog2Aux_spec (fuel n : Nat) (hf : n ≤ fuel) (hn : 0 < n) :
    2 ^ ilog2Aux fuel n ≤ n ∧ n < 2 ^ (ilog2Aux fuel n + 1) := by
  induction fuel generalizing n with
  | zero => omega
  | succ f ih =>
    unfold ilog2Aux
    by_cases h2 : n < 2
    · rw [if_pos h2]
      simp only [pow_zero, zero_add, pow_one]
      omega
    · rw [if_neg h2]
      obtain ⟨h1, h3⟩ := ih (n / 2) (by omega) (by omega)
      rw [pow_succ, pow_succ]
      rw [pow_succ] at h3
      omega

theorem ilog2_spec (n : Nat) (hn : 0 < n) : 2 ^ ilog2 n ≤ n ∧ n < 2 ^ (ilog2 n + 1) :=
  ilog2Aux_spec n n (le_refl n) hn

theorem nearestEven_one (x : Nat) : nearestEven x 1 = x := by
  simp [nearestEven, Nat.mod_one]

theorem two_zpow_split (e : ℤ) :
    (2 : ℚ) ^ e = (2 : ℚ) ^ e.toNat / (2 : ℚ) ^ (-e).toNat := by
  rcases le_total 0 e with h | h
  · obtain ⟨k, rfl⟩ := Int.eq_ofNat_of_zero_le h
    simp
  · obtain ⟨k, hk⟩ := Int.eq_ofNat_of_zero_le (neg_nonneg.mpr h)
    have he : e = -(k : ℤ) := by omega
    subst he
    simp

theorem fl32_zero : fl32 0 = 0 := by
  simp [fl32, round32]

theorem expo_lt (n d : Nat) (hn : 0 < n) (hd : 0 < d) :
    (n : ℚ) / (d : ℚ) < (2 : ℚ) ^ (expo n d + 24) := by
  obtain ⟨a1, a2⟩ := ilog2_spec n hn
  obtain ⟨b1, b2⟩ := ilog2_spec d hd
  have hd0 : (0 : ℚ) < (d : ℚ) := by exact_mod_cast hd
  have h2 : (2 : ℚ) ≠ 0 := by norm_num
  unfold expo
  rw [div_lt_iff₀ hd0]
  by_cases hc : n * 2 ^ ilog2 d < d * 2 ^ ilog2 n
  · rw [if_pos hc]
    have he : (ilog2 n : ℤ) - (ilog2 d : ℤ) - 1 - 23 + 24 =
        (ilog2 n : ℤ) - ((ilog2 d : ℕ) : ℤ) := by ring
    rw [he, zpow_sub₀ h2, zpow_natCast, zpow_natCast, div_mul_eq_mul_div,
      lt_div_iff₀ (by positivity)]
    have hnat : n * 2 ^ ilog2 d < 2 ^ ilog2 n * d := by
      rw [Nat.mul_comm (2 ^ ilog2 n) d]; exact hc
    exact_mod_cast hnat
  · rw [if_neg hc]
    have he : (ilog2 n : ℤ) - (ilog2 d : ℤ) - 0 - 23 + 24 =
        ((ilog2 n + 1 : ℕ) : ℤ) - ((ilog2 d : ℕ) : ℤ) := by push_cast; ring
    rw [he, zpow_sub₀ h2, zpow_natCast, zpow_natCast, div_mul_eq_mul_div,
      lt_div_iff₀ (by positivity)]
    have hnat : n * 2 ^ ilog2 d < 2 ^ (ilog2 n + 1) * d := by
      calc n * 2 ^ ilog2 d < 2 ^ (ilog2 n + 1) * 2 ^ ilog2 d :=
            Nat.mul_lt_mul_of_pos_right a2 (by positivity)
        _ ≤ 2 ^ (ilog2 n + 1) * d := Nat.mul_le_mul_left _ b1
    exact_mod_cast hnat

theorem fl32_intCast (z : ℤ) (hz : z.natAbs < 2 ^ 24) : fl32 (z : ℚ) = (z : ℚ) := by
  by_cases h0 : z.natAbs = 0
  · have : z = 0 := Int.natAbs_eq_zero.mp h0
    subst this
    simpa using fl32_zero
  have hn : 0 < z.natAbs := Nat.pos_of_ne_zero h0
  obtain ⟨a1, a2⟩ := ilog2_spec z.natAbs hn
  have ha : ilog2 z.natAbs < 24 := by
    by_contra hcon
    have : 2 ^ 24 ≤ 2 ^ ilog2 z.natAbs := Nat.pow_le_pow_right (by decide) (by omega)
    omega
  have h1 : ilog2 1 = 0 := by decide
  have he : expo z.natAbs 1 ≤ 0 := by
    unfold expo
    rw [h1]
    split <;> push_cast <;> omega
  have ht : (expo z.natAbs 1).toNat = 0 := Int.toNat_eq_zero.mpr he
  have hp := two_zpow_split (expo z.natAbs 1)
  rw [ht, pow_zero] at hp
  unfold fl32 round32
  simp only [Rat.intCast_num, Rat.intCast_den, if_neg h0, ht, pow_zero, Nat.mul_one,
    nearestEven_one, hp]
  have h2 : ((z.sign * (z.natAbs : ℤ) : ℤ) : ℚ) = (z : ℚ) := by
    rw [Int.sign_mul_natAbs]
  simp only [Int.cast_mul, Int.cast_natCast] at h2
  simp only [Int.cast_mul, Int.cast_natCast, Nat.cast_mul, Nat.cast_pow, Nat.cast_ofNat]
  field_simp
  rw [← mul_assoc, h2]

theorem fsum_exact_aux (l : List Int) (z : Int)
    (h : z.natAbs + (l.map Int.natAbs).sum < 2 ^ 24) :
    l.foldl (fun sum x => fl32 (sum + fl32 ((x : Int) : ℚ))) (z : ℚ) =
      ((z + l.sum : Int) : ℚ) := by
  induction l generalizing z with
  | nil => simp
  | cons x t ih =>
    simp only [List.map_cons, List.sum_cons] at h
    have hx := Int.natAbs_add_le z x
    rw [List.foldl_cons, fl32_intCast x (by omega), ← Int.cast_add,
      fl32_intCast (z + x) (by omega), ih (z + x) (by omega), List.sum_cons, add_assoc]

theorem fsum_exact (l : List Int) (h : (l.map Int.natAbs).sum < 2 ^ 24) :
    fsum l = ((l.sum : Int) : ℚ) := by
  have := fsum_exact_aux l 0 (by simpa using h)
  simpa [fsum] using this

theorem fl32_natCast (n : Nat) (h : n < 2 ^ 24) : fl32 (n : ℚ) = (n : ℚ) := by
  have := fl32_intCast (n : ℤ) (by simpa using h)
  simpa using this

theorem sumLoop_eq (l : List Int) (a n : Nat) (acc : ℚ) (h : a + n ≤ l.length) :
    (List.range' a n).foldl (fun sum i => fl32 (sum + fl32 ((l.getD i 0 : Int) : ℚ))) acc =
      ((l.drop a).take n).foldl (fun sum x => fl32 (sum + fl32 ((x : Int) : ℚ))) acc := by
  induction n with
  | zero => simp
  | succ n ih =>
    rw [List.range'_concat, List.foldl_append, ih (by omega)]
    simp only [List.foldl_cons, List.foldl_nil, Nat.one_mul]
    have ht : (l.drop a).take (n + 1) = (l.drop a).take n ++ [l[a + n]] := by
      rw [List.take_succ, List.getElem?_drop, List.getElem?_eq_getElem (by omega)]; rfl
    rw [ht, getD_of_lt _ _ (by omega), List.foldl_append]
    simp only [List.foldl_cons, List.foldl_nil]

theorem sumLoop_range (l : List Int) (k : Nat) (h : k ≤ l.length) :
    (List.range k).foldl (fun sum i => fl32 (sum + fl32 ((l.getD i 0 : Int) : ℚ))) 0 =
      fsum (l.take k) := by
  rw [List.range_eq_range', sumLoop_eq l 0 k 0 (by omega)]
  simp [fsum]

theorem start_eq (cnt n : Nat) (h : cnt ≤ 255) : start cnt n = (cnt - n) / 2 := by
  unfold start
  exact Nat.mod_eq_of_lt (by omega)

theorem stop_eq (cnt n : Nat) (h : cnt ≤ 255) (hn : n ≤ cnt) :
    stop cnt n = (cnt - n) / 2 + n := by
  unfold stop
  rw [start_eq cnt n h]
  exact Nat.mod_eq_of_lt (by omega)

theorem sort_window (s : RunningMedian) (h : Valid s) (a n : Nat) (han : a + n ≤ s._cnt) :
    ((sort s)._as.drop a).take n = ((sorted s).drop a).take n := by
  rw [← sort_take s h, List.take_drop, List.take_drop, List.take_take,
    Nat.min_eq_left han]

/-- The trimmed average on a non-empty container, in closed form: `k` is the
clamped `nMedians`, the window is summed in ascending order with a rounding
after each addition, and the quotient is rounded. -/
theorem getAverageN_eq (s : RunningMedian) (nMedians : Nat) (value : ℚ) (h : Valid s)
    (hc : 0 < s._cnt) (hn : 0 < nMedians) :
    getAverageN s nMedians value =
      (STATUS.OK,
       fl32 (fsum (((sorted s).drop ((s._cnt - clamp s._cnt nMedians) / 2)).take
          (clamp s._cnt nMedians)) / ((clamp s._cnt nMedians : Nat) : ℚ)),
       sort s) := by
  have hk : clamp s._cnt nMedians ≤ s._cnt := by unfold clamp; split <;> omega
  unfold getAverageN
  rw [if_pos ⟨hc, hn⟩]
  generalize clamp s._cnt nMedians = k at hk ⊢
  have hinv := sort_inv s h
  have hcopy := copy_eq s h
  have hsl := samples_length s h
  obtain ⟨h1, h2, h3, h4, h5, h6⟩ := h
  have hst := start_eq s._cnt k (by omega)
  have hsp := stop_eq s._cnt k (by omega) hk
  have hlen : s._cnt ≤ (sort s)._as.length := by
    rw [hinv.1, hcopy]; simp [hsl]
  have hsum := sumLoop_eq (sort s)._as ((s._cnt - k) / 2) k 0 (by omega)
  rw [sort_window s ⟨h1, h2, h3, h4, h5, h6⟩ _ _ (by omega)] at hsum
  have hkc : fl32 (k : ℚ) = (k : ℚ) := fl32_natCast k (by omega)
  simp only [hst, hsp, Nat.add_sub_cancel_left, hsum, hkc, fsum]

/-- The full average on a non-empty container, in closed form: the samples are
summed in slot order with a rounding after each addition, and the quotient is
rounded. -/
theorem getAverage_eq (s : RunningMedian) (value : ℚ) (h : Valid s) (hc : 0 < s._cnt) :
    getAverage s value =
      (STATUS.OK, fl32 (fsum (samples s) / (s._cnt : ℚ)), s) := by
  obtain ⟨h1, h2, h3, h4, h5, h6⟩ := h
  have hsum := sumLoop_range s._ar s._cnt (by omega)
  have hkc : fl32 (s._cnt : ℚ) = (s._cnt : ℚ) := fl32_natCast s._cnt (by omega)
  simp only [getAverage, gt_iff_lt, hc, if_true, hsum, samples, hkc]

theorem valid_sort (s : RunningMedian) (h : Valid s) : Valid (sort s) := by
  have hl := (sort_inv s h).1
  have hc := copy_eq s h
  have hs := samples_length s h
  obtain ⟨h1, h2, h3, h4, h5, h6⟩ := h
  refine ⟨h1, h2, h3, ?_, h5, h6⟩
  rw [hl, hc, sort_size]
  simp [hs]
  omega

theorem samples_sort (s : RunningMedian) : samples (sort s) = samples s := rfl

theorem sorted_sort (s : RunningMedian) : sorted (sort s) = sorted s := rfl

/-- The median query on a non-empty container, in closed form. -/
theorem getMedian_eq (s : RunningMedian) (value : Int) (h : Valid s) (hc : 0 < s._cnt) :
    getMedian s value = (STATUS.OK, (sorted s).getD (s._cnt / 2) 0, sort s) := by
  have hlt : s._cnt / 2 < s._cnt := Nat.div_lt_self hc (by decide)
  simp only [getMedian, gt_iff_lt, hc, if_true, sort_cnt]
  rw [sort_getD s h _ hlt]

/-- The maximum query on a non-empty container, in closed form. -/
theorem getHighest_eq (s : RunningMedian) (value : Int) (h : Valid s) (hc : 0 < s._cnt) :
    getHighest s value = (STATUS.OK, (sorted s).getD (s._cnt - 1) 0, sort s) := by
  simp only [getHighest, gt_iff_lt, hc, if_true, sort_cnt]
  rw [sort_getD s h _ (by omega)]

/-- The minimum query on a non-empty container, in closed form. -/
theorem getLowest_eq (s : RunningMedian) (value : Int) (h : Valid s) (hc : 0 < s._cnt) :
    getLowest s value = (STATUS.OK, (sorted s).getD 0 0, sort s) := by
  simp only [getLowest, gt_iff_lt, hc, if_true]
  rw [sort_getD s h _ hc]

theorem getMedian_empty (s : RunningMedian) (value : Int) (hc : s._cnt = 0) :
    getMedian s value = (STATUS.NOK, value, s) := by
  simp [getMedian, hc]

theorem getHighest_empty (s : RunningMedian) (value : Int) (hc : s._cnt = 0) :
    getHighest s value = (STATUS.NOK, value, s) := by
  simp [getHighest, hc]

theorem getLowest_empty (s : RunningMedian) (value : Int) (hc : s._cnt = 0) :
    getLowest s value = (STATUS.NOK, value, s) := by
  simp [getLowest, hc]

theorem getAverage_empty (s : RunningMedian) (value : ℚ) (hc : s._cnt = 0) :
    getAverage s value = (STATUS.NOK, value, s) := by
  simp [getAverage, hc]

theorem getAverageN_nok (s : RunningMedian) (n : Nat) (value : ℚ)
    (hc : s._cnt = 0 ∨ n = 0) : getAverageN s n value = (STATUS.NOK, value, s) := by
  unfold getAverageN
  rw [if_neg (by omega)]

/-- Every query hands back a state with the size it was given. -/
theorem reachable_size (N : Nat) (s : RunningMedian) (h : Reachable N s) :
    s._size = N % 256 := by
  induction h with
  | construct a0 s0 => rfl
  | add s v _ ih => rw [add_size, ih]
  | clear s _ ih => exact ih
  | getMedian s v _ ih =>
    unfold getMedian; split <;> simpa [sort_size] using ih
  | getAverage s v _ ih =>
    unfold getAverage; split <;> simpa using ih
  | getAverageN s n v _ ih =>
    unfold getAverageN; split <;> simpa [sort_size] using ih
  | getHighest s v _ ih =>
    unfold getHighest; split <;> simpa [sort_size] using ih
  | getLowest s v _ ih =>
    unfold getLowest; split <;> simpa [sort_size] using ih

/-! ## Claims about `RunningMedian` -/

/-- C1: for a capacity `N` with `1 ≤ N ≤ 255`, after any sequence of `add()`
calls on a freshly constructed container, or on a container of capacity `N`
that was just cleared, `getCount()` is the minimum of the number of calls and
`N`. -/
theorem getCount_addAll (N : Nat) (h1 : 1 ≤ N) (h2 : N ≤ 255) (values : List Int) :
    (∀ a0 s0, getCount (addAll (construct N a0 s0) values) = min values.length N) ∧
    (∀ s, Valid s → s._size = N →
      getCount (addAll (clear s) values) = min values.length N) := by
  constructor
  · intro a0 s0
    have hv := valid_construct N a0 s0 h1 h2
    rw [getCount, addAll_cnt _ _ hv]
    have e : (construct N a0 s0)._size = N := Nat.mod_eq_of_lt (by omega)
    have c : (construct N a0 s0)._cnt = 0 := rfl
    rw [e, c, Nat.zero_add]
  · intro s hs hN
    rw [getCount, addAll_cnt _ _ (valid_clear s hs)]
    have e : (clear s)._size = N := hN
    have c : (clear s)._cnt = 0 := rfl
    rw [e, c, Nat.zero_add]

/-- Witness of C1: capacity 3; two adds give count 2, three give 3, five
still give 3, and one add after a clear of the full container gives 1. -/
theorem getCount_addAll_witness :
    getCount (addAll (construct 3 (fun _ => 0) (fun _ => 0)) [4, 5]) = 2 ∧
    getCount (addAll (construct 3 (fun _ => 0) (fun _ => 0)) [4, 5, 6]) = 3 ∧
    getCount (addAll (construct 3 (fun _ => 0) (fun _ => 0)) [4, 5, 6, 7, 8]) = 3 ∧
    getCount (addAll (clear (addAll (construct 3 (fun _ => 0) (fun _ => 0)) [4, 5, 6])) [9])
      = 1 :=
  ⟨(getCount_addAll 3 (by decide) (by decide) [4, 5]).1 _ _,
   (getCount_addAll 3 (by decide) (by decide) [4, 5, 6]).1 _ _,
   (getCount_addAll 3 (by decide) (by decide) [4, 5, 6, 7, 8]).1 _ _,
   (getCount_addAll 3 (by decide) (by decide) [9]).2 _ (by decide) (by decide)⟩

/-- C2: for a capacity `N` with `1 ≤ N ≤ 255`, after the samples `values` were
added in order to a fresh or just cleared container, the multiset of the valid
slots `_ar[0 .. _cnt)` is the multiset of the last `min k N` of them
(`k` the number of adds); after `N + 1` adds `v, values` the retained samples
are `values` and the first one, `v`, is gone. -/
theorem samples_after_adds (N : Nat) (h1 : 1 ≤ N) (h2 : N ≤ 255) (values : List Int) :
    (∀ a0 s0, (↑(samples (addAll (construct N a0 s0) values)) : Multiset Int) =
      ↑(values.drop (values.length - min values.length N))) ∧
    (∀ s, Valid s → s._size = N →
      (↑(samples (addAll (clear s) values)) : Multiset Int) =
        ↑(values.drop (values.length - min values.length N))) ∧
    (∀ a0 s0 v, values.length = N →
      (↑(samples (addAll (construct N a0 s0) (v :: values))) : Multiset Int) = ↑values) := by
  have e : ∀ a0 s0, (construct N a0 s0)._size = N := fun _ _ => Nat.mod_eq_of_lt (by omega)
  refine ⟨?_, ?_, ?_⟩
  · intro a0 s0
    have hp := samples_addAll _ values (valid_construct N a0 s0 h1 h2) rfl rfl
    rw [e] at hp
    exact Quotient.sound hp
  · intro s hs hN
    have hp := samples_addAll _ values (valid_clear s hs) rfl rfl
    have e1 : (clear s)._size = N := hN
    rw [e1] at hp
    exact Quotient.sound hp
  · intro a0 s0 v hlen
    have hp := samples_addAll _ (v :: values) (valid_construct N a0 s0 h1 h2) rfl rfl
    rw [e] at hp
    have hd : (v :: values).length - min (v :: values).length N = 1 := by
      simp only [List.length_cons]; omega
    rw [hd] at hp
    exact Quotient.sound hp

/-- Witness of C2: capacity 3 with the four adds 10, 20, 30, 40 retains
20, 30, 40 (held in the slots as 40, 20, 30). -/
theorem samples_after_adds_witness :
    samples (addAll (construct 3 (fun _ => 0) (fun _ => 0)) [10, 20, 30, 40]) = [40, 20, 30] ∧
    (↑(samples (addAll (construct 3 (fun _ => 0) (fun _ => 0)) [10, 20, 30, 40])) :
      Multiset Int) = ↑([20, 30, 40] : List Int) :=
  ⟨by decide,
   (samples_after_adds 3 (by decide) (by decide) [20, 30, 40]).2.2 _ _ 10 (by decide)⟩

/-- C3: on a container with `_cnt > 0`, `getMedian` returns `OK` and the value
is the element of rank `_cnt / 2` (counted from 0) of the ascending sort of
the valid samples; for an even count `2 * m` that is the upper one of the two
middle elements, those of rank `m - 1` and `m`. -/
theorem getMedian_spec (s : RunningMedian) (value : Int) (h : Valid s) (hc : 0 < s._cnt) :
    (getMedian s value).1 = STATUS.OK ∧
    (sorted s)[s._cnt / 2]? = some (getMedian s value).2.1 ∧
    (∀ m, s._cnt = 2 * m →
      (sorted s)[m]? = some (getMedian s value).2.1 ∧
      ∀ x, (sorted s)[m - 1]? = some x → x ≤ (getMedian s value).2.1) := by
  have hlen := sorted_length s h
  have hlt : s._cnt / 2 < s._cnt := Nat.div_lt_self hc (by decide)
  have hval : (getMedian s value).2.1 = (sorted s).getD (s._cnt / 2) 0 := by
    simp only [getMedian, gt_iff_lt, hc, if_true, sort_cnt]
    exact sort_getD s h _ hlt
  have hsome : (sorted s)[s._cnt / 2]? = some (getMedian s value).2.1 := by
    rw [hval, getD_of_lt _ _ (by omega), List.getElem?_eq_getElem (by omega)]
  refine ⟨by simp [getMedian, hc], hsome, ?_⟩
  intro m hm
  have hdiv : s._cnt / 2 = m := by omega
  rw [hdiv] at hsome
  refine ⟨hsome, ?_⟩
  intro x hx
  have hm1 : m - 1 < (sorted s).length := by omega
  have hm2 : m < (sorted s).length := by omega
  rw [List.getElem?_eq_getElem hm1] at hx
  rw [List.getElem?_eq_getElem hm2] at hsome
  have hx1 : (sorted s)[m - 1] = x := by simpa using hx
  have hv1 : (sorted s)[m] = (getMedian s value).2.1 := by simpa using hsome
  rw [← hx1, ← hv1]
  have hs := sorted_sorted s
  rw [List.Sorted, List.pairwise_iff_getElem] at hs
  exact hs (m - 1) m hm1 hm2 (by omega)

/-- Witness of C3: capacity 5 with the adds 5, 3, 8, 1, 9 has median 5. -/
theorem getMedian_spec_witness :
    (getMedian (addAll (construct 5 (fun _ => 0) (fun _ => 0)) [5, 3, 8, 1, 9]) 0).1
      = STATUS.OK ∧
    (getMedian (addAll (construct 5 (fun _ => 0) (fun _ => 0)) [5, 3, 8, 1, 9]) 0).2.1 = 5 ∧
    sorted (addAll (construct 5 (fun _ => 0) (fun _ => 0)) [5, 3, 8, 1, 9]) = [1, 3, 5, 8, 9] :=
  ⟨(getMedian_spec (addAll (construct 5 (fun _ => 0) (fun _ => 0)) [5, 3, 8, 1, 9]) 0
      (by decide) (by decide)).1,
   by decide, by decide⟩

/-- C4: in every state, each of `getMedian`, `getAverage()`, `getHighest` and
`getLowest` returns `NOK` exactly when `_cnt` is 0, which is exactly when
`getStatus()` returns `NOK`; a call that returns `NOK` hands back the caller's
value and the state as they were. -/
theorem nok_iff_empty (s : RunningMedian) (value : Int) (fvalue : ℚ) :
    ((getMedian s value).1 = STATUS.NOK ↔ s._cnt = 0) ∧
    ((getAverage s fvalue).1 = STATUS.NOK ↔ s._cnt = 0) ∧
    ((getHighest s value).1 = STATUS.NOK ↔ s._cnt = 0) ∧
    ((getLowest s value).1 = STATUS.NOK ↔ s._cnt = 0) ∧
    (getStatus s = STATUS.NOK ↔ s._cnt = 0) ∧
    ((getMedian s value).1 = STATUS.NOK → getMedian s value = (STATUS.NOK, value, s)) ∧
    ((getAverage s fvalue).1 = STATUS.NOK → getAverage s fvalue = (STATUS.NOK, fvalue, s)) ∧
    ((getHighest s value).1 = STATUS.NOK → getHighest s value = (STATUS.NOK, value, s)) ∧
    ((getLowest s value).1 = STATUS.NOK → getLowest s value = (STATUS.NOK, value, s)) := by
  by_cases hc : s._cnt = 0
  · simp [getMedian, getAverage, getHighest, getLowest, getStatus, hc]
  · have hpos : 0 < s._cnt := Nat.pos_of_ne_zero hc
    simp [getMedian, getAverage, getHighest, getLowest, getStatus, hc, hpos]

/-- The trimmed average under the hypothesis that makes the running sum of
the window exact. -/
theorem getAverageN_exact (s : RunningMedian) (nMedians : Nat) (value : ℚ) (h : Valid s)
    (hc : 0 < s._cnt) (hn : 0 < nMedians)
    (hs : (((((sorted s).drop ((s._cnt - clamp s._cnt nMedians) / 2)).take
      (clamp s._cnt nMedians))).map Int.natAbs).sum < 2 ^ 24) :
    (getAverageN s nMedians value).2.1 =
      fl32 ((((((sorted s).drop ((s._cnt - clamp s._cnt nMedians) / 2)).take
        (clamp s._cnt nMedians)).sum : Int) : ℚ) / ((clamp s._cnt nMedians : Nat) : ℚ)) := by
  rw [getAverageN_eq s nMedians value h hc hn, fsum_exact _ hs]

/-- C8: `getAverage(trimCount)` returns `NOK` exactly when `_cnt` is 0 or
`trimCount` is 0; with `_cnt > 0` every `trimCount` in 1..255 gives `OK`,
however large it is relative to `_cnt`. -/
theorem getAverageN_nok_iff (s : RunningMedian) (trimCount : Nat) (value : ℚ) :
    ((getAverageN s trimCount value).1 = STATUS.NOK ↔ (s._cnt = 0 ∨ trimCount = 0)) ∧
    (0 < s._cnt → 1 ≤ trimCount → trimCount ≤ 255 →
      (getAverageN s trimCount value).1 = STATUS.OK) := by
  unfold getAverageN
  constructor
  · by_cases hc : s._cnt > 0 ∧ trimCount > 0
    · rw [if_pos hc]
      simp only [reduceCtorEq, false_iff]
      omega
    · rw [if_neg hc]
      simp only [true_iff]
      omega
  · intro hc h1 _
    rw [if_pos ⟨hc, by omega⟩]

/-- C9: on a container with `_cnt > 0`, `getHighest` returns `OK` with a valid
sample that every valid sample is at most, and `getLowest` returns `OK` with a
valid sample that every valid sample is at least. -/
theorem getHighest_getLowest_spec (s : RunningMedian) (value : Int) (h : Valid s)
    (hc : 0 < s._cnt) :
    (getHighest s value).1 = STATUS.OK ∧
    (getHighest s value).2.1 ∈ samples s ∧
    (∀ x ∈ samples s, x ≤ (getHighest s value).2.1) ∧
    (getLowest s value).1 = STATUS.OK ∧
    (getLowest s value).2.1 ∈ samples s ∧
    (∀ x ∈ samples s, (getLowest s value).2.1 ≤ x) := by
  have hlen := sorted_length s h
  have hs := sorted_sorted s
  rw [List.Sorted, List.pairwise_iff_getElem] at hs
  have hb1 : s._cnt - 1 < (sorted s).length := by omega
  have hb0 : 0 < (sorted s).length := by omega
  have hhi : (getHighest s value).2.1 = (sorted s)[s._cnt - 1] := by
    simp only [getHighest, gt_iff_lt, hc, if_true, sort_cnt]
    rw [sort_getD s h _ (by omega), getD_of_lt _ _ (by omega)]
  have hlo : (getLowest s value).2.1 = (sorted s)[0] := by
    simp only [getLowest, gt_iff_lt, hc, if_true]
    rw [sort_getD s h _ hc, getD_of_lt _ _ (by omega)]
  refine ⟨by simp [getHighest, hc], ?_, ?_, by simp [getLowest, hc], ?_, ?_⟩
  · rw [hhi]
    exact (sorted_perm s).mem_iff.mp (List.getElem_mem _)
  · intro x hx
    obtain ⟨j, hj, rfl⟩ := List.mem_iff_getElem.mp ((sorted_perm s).mem_iff.mpr hx)
    rw [hhi]
    by_cases hjl : j = s._cnt - 1
    · subst hjl; exact le_refl _
    · exact hs j (s._cnt - 1) hj (by omega) (by omega)
  · rw [hlo]
    exact (sorted_perm s).mem_iff.mp (List.getElem_mem _)
  · intro x hx
    obtain ⟨j, hj, rfl⟩ := List.mem_iff_getElem.mp ((sorted_perm s).mem_iff.mpr hx)
    rw [hlo]
    by_cases hjl : j = 0
    · subst hjl; exact le_refl _
    · exact hs 0 j (by omega) hj (by omega)

/-- Witness of C9: capacity 5 with the adds 5, 3, 8, 1, 9 has highest 9 and
lowest 1. -/
theorem getHighest_getLowest_spec_witness :
    (getHighest (addAll (construct 5 (fun _ => 0) (fun _ => 0)) [5, 3, 8, 1, 9]) 0).2.1 = 9 ∧
    (getLowest (addAll (construct 5 (fun _ => 0) (fun _ => 0)) [5, 3, 8, 1, 9]) 0).2.1 = 1 ∧
    (getHighest (addAll (construct 5 (fun _ => 0) (fun _ => 0)) [5, 3, 8, 1, 9]) 0).1
      = STATUS.OK ∧
    (getLowest (addAll (construct 5 (fun _ => 0) (fun _ => 0)) [5, 3, 8, 1, 9]) 0).1
      = STATUS.OK :=
  ⟨by decide, by decide,
   (getHighest_getLowest_spec (addAll (construct 5 (fun _ => 0) (fun _ => 0)) [5, 3, 8, 1, 9])
      0 (by decide) (by decide)).1,
   (getHighest_getLowest_spec (addAll (construct 5 (fun _ => 0) (fun _ => 0)) [5, 3, 8, 1, 9])
      0 (by decide) (by decide)).2.2.2.1⟩

/-- C10, as stated, fails: a container holding the two samples 1 and 2, asked
for `getAverage(1)`, averages `sorted[0 .. 1)`: no sample is excluded below
the window (`start` is 0) and one is excluded above it (`_cnt - stop` is 1),
so the value is the lowest sample. -/
theorem trim_not_symmetric :
    (addAll (construct 2 (fun _ => 0) (fun _ => 0)) [1, 2])._cnt = 2 ∧
    start 2 (clamp 2 1) = 0 ∧
    2 - stop 2 (clamp 2 1) = 1 ∧
    start 2 (clamp 2 1) ≠ 2 - stop 2 (clamp 2 1) ∧
    (getAverageN (addAll (construct 2 (fun _ => 0) (fun _ => 0)) [1, 2]) 1 0).1 = STATUS.OK ∧
    (getAverageN (addAll (construct 2 (fun _ => 0) (fun _ => 0)) [1, 2]) 1 0).2.1 = 1 := by
  refine ⟨by decide, by decide, by decide, by decide, by decide, ?_⟩
  have h1 : fl32 (1 : ℚ) = 1 := by simpa using fl32_intCast 1 (by decide)
  norm_num [getAverageN, addAll, construct, clear, add, clamp, start, stop, sort, copy,
    sortStep, minIndex, List.range, List.range.loop, List.range', h1]

/-- C10, amended: on a container and for `1 ≤ trimCount ≤ _cnt` (so
`_cnt ≥ 1`), the averaged window has `trimCount` elements and the
number of sorted samples excluded above it (`_cnt - stop`) is the number
excluded below it (`start`) when `_cnt - trimCount` is even, and one more
than that when `_cnt - trimCount` is odd. -/
theorem trim_offsets (s : RunningMedian) (trimCount : Nat) (h : Valid s)
    (h1 : 1 ≤ trimCount) (h2 : trimCount ≤ s._cnt) :
    stop s._cnt (clamp s._cnt trimCount) - start s._cnt (clamp s._cnt trimCount)
      = trimCount ∧
    s._cnt - stop s._cnt (clamp s._cnt trimCount) =
      start s._cnt (clamp s._cnt trimCount) + (s._cnt - trimCount) % 2 := by
  obtain ⟨_, h255, _, _, h5, _⟩ := h
  have hk : clamp s._cnt trimCount = trimCount := by
    unfold clamp; rw [if_neg (by omega)]
  rw [hk, stop_eq s._cnt trimCount (by omega) h2, start_eq s._cnt trimCount (by omega)]
  omega

/-- Witness of the amended C10: with five samples, `trimCount` 3 excludes one
sample on each side and `trimCount` 2 excludes one below and two above. -/
theorem trim_offsets_witness :
    (start 5 (clamp 5 3) = 1 ∧ 5 - stop 5 (clamp 5 3) = 1) ∧
    (start 5 (clamp 5 2) = 1 ∧ 5 - stop 5 (clamp 5 2) = 2) ∧
    5 - stop 5 (clamp 5 2) = start 5 (clamp 5 2) + (5 - 2) % 2 :=
  ⟨by decide, by decide,
   (trim_offsets (addAll (construct 5 (fun _ => 0) (fun _ => 0)) [5, 3, 8, 1, 9]) 2
      (by decide) (by decide) (by decide)).2⟩

/-- C11: on every container, calling `getMedian`, `getAverage()`,
`getAverage(n)`, `getHighest` or `getLowest` a second time, on the state the
first call left and with the caller's variable as the first call left it,
returns the status and the value of the first call, whatever `_as` held
before; `getSize`, `getCount` and `getStatus` change no state and return the
same on the state a query's `sort()` leaves. -/
theorem reads_idempotent (s : RunningMedian) (value : Int) (fvalue : ℚ) (n : Nat)
    (h : Valid s) :
    ((getMedian (getMedian s value).2.2 (getMedian s value).2.1).1 = (getMedian s value).1 ∧
      (getMedian (getMedian s value).2.2 (getMedian s value).2.1).2.1
        = (getMedian s value).2.1) ∧
    ((getAverage (getAverage s fvalue).2.2 (getAverage s fvalue).2.1).1
        = (getAverage s fvalue).1 ∧
      (getAverage (getAverage s fvalue).2.2 (getAverage s fvalue).2.1).2.1
        = (getAverage s fvalue).2.1) ∧
    ((getAverageN (getAverageN s n fvalue).2.2 n (getAverageN s n fvalue).2.1).1
        = (getAverageN s n fvalue).1 ∧
      (getAverageN (getAverageN s n fvalue).2.2 n (getAverageN s n fvalue).2.1).2.1
        = (getAverageN s n fvalue).2.1) ∧
    ((getHighest (getHighest s value).2.2 (getHighest s value).2.1).1
        = (getHighest s value).1 ∧
      (getHighest (getHighest s value).2.2 (getHighest s value).2.1).2.1
        = (getHighest s value).2.1) ∧
    ((getLowest (getLowest s value).2.2 (getLowest s value).2.1).1 = (getLowest s value).1 ∧
      (getLowest (getLowest s value).2.2 (getLowest s value).2.1).2.1
        = (getLowest s value).2.1) ∧
    (getSize (sort s) = getSize s ∧ getCount (sort s) = getCount s ∧
      getStatus (sort s) = getStatus s) := by
  have hvs := valid_sort s h
  by_cases hc : s._cnt = 0
  · refine ⟨?_, ?_, ?_, ?_, ?_, rfl, rfl, rfl⟩
    · simp only [getMedian_empty s _ hc, getMedian_empty s value hc, and_self]
    · simp only [getAverage_empty s _ hc, getAverage_empty s fvalue hc, and_self]
    · simp only [getAverageN_nok s n _ (Or.inl hc), and_self]
    · simp only [getHighest_empty s _ hc, getHighest_empty s value hc, and_self]
    · simp only [getLowest_empty s _ hc, getLowest_empty s value hc, and_self]
  · have hpos : 0 < s._cnt := Nat.pos_of_ne_zero hc
    have hpos1 : 0 < (sort s)._cnt := hpos
    refine ⟨?_, ?_, ?_, ?_, ?_, rfl, rfl, rfl⟩
    · rw [getMedian_eq s value h hpos]
      simp only [getMedian_eq (sort s) _ hvs hpos1, sorted_sort, sort_cnt, and_self]
    · rw [getAverage_eq s fvalue h hpos]
      simp only [getAverage_eq s _ h hpos, and_self]
    · by_cases hn : n = 0
      · simp only [getAverageN_nok s n _ (Or.inr hn), and_self]
      · have hnpos : 0 < n := Nat.pos_of_ne_zero hn
        rw [getAverageN_eq s n fvalue h hpos hnpos]
        simp only [getAverageN_eq (sort s) n _ hvs hpos1 hnpos, sorted_sort, sort_cnt,
          and_self]
    · rw [getHighest_eq s value h hpos]
      simp only [getHighest_eq (sort s) _ hvs hpos1, sorted_sort, sort_cnt, and_self]
    · rw [getLowest_eq s value h hpos]
      simp only [getLowest_eq (sort s) _ hvs hpos1, sorted_sort, and_self]

/-- Witness of C11: capacity 5 with the adds 5, 3, 8, 1, 9 and a scratch
array holding 7 everywhere; the second `getMedian` returns 5 like the first. -/
theorem reads_idempotent_witness :
    (getMedian (addAll (construct 5 (fun _ => 0) (fun _ => 7)) [5, 3, 8, 1, 9]) 0).2.1 = 5 ∧
    (getMedian (getMedian (addAll (construct 5 (fun _ => 0) (fun _ => 7)) [5, 3, 8, 1, 9]) 0).2.2
      (getMedian (addAll (construct 5 (fun _ => 0) (fun _ => 7)) [5, 3, 8, 1, 9]) 0).2.1).2.1
      = (getMedian (addAll (construct 5 (fun _ => 0) (fun _ => 7)) [5, 3, 8, 1, 9]) 0).2.1 :=
  ⟨by decide,
   (reads_idempotent (addAll (construct 5 (fun _ => 0) (fun _ => 7)) [5, 3, 8, 1, 9]) 0 0 3
      (by decide)).1.2⟩

/-- C13, as stated, fails: with the template capacity 256 the constructor
stores 256 in the 8-bit `_size`, and `getSize()` returns 0, also after an
`add()` and a `clear()`. -/
theorem getSize_256 :
    Reachable 256 (clear (add (construct 256 (fun _ => 0) (fun _ => 0)) 5)) ∧
    getSize (construct 256 (fun _ => 0) (fun _ => 0)) = 0 ∧
    getSize (add (construct 256 (fun _ => 0) (fun _ => 0)) 5) = 0 ∧
    getSize (clear (add (construct 256 (fun _ => 0) (fun _ => 0)) 5)) = 0 :=
  ⟨Reachable.clear _ (Reachable.add _ _ (Reachable.construct _ _)), rfl, rfl, rfl⟩

/-- C13, amended: in every state reachable from the construction with the
template capacity `N`, `getSize()` returns `N mod 256`, which is `N` for every
`N` up to 255; `add()`, `clear()` and the queries do not change it. -/
theorem getSize_reachable (N : Nat) (s : RunningMedian) (h : Reachable N s) :
    getSize s = N % 256 ∧ (N ≤ 255 → getSize s = N) := by
  have hs : getSize s = N % 256 := reachable_size N s h
  refine ⟨hs, ?_⟩
  intro hN
  rw [hs]
  exact Nat.mod_eq_of_lt (by omega)

/-- Witness of the amended C13: capacity 5, after two adds, a median query and
a clear, still has size 5. -/
theorem getSize_reachable_witness :
    getSize (clear (getMedian (add (add (construct 5 (fun _ => 0) (fun _ => 0)) 4) 6) 0).2.2)
      = 5 :=
  (getSize_reachable 5 _
    (Reachable.clear _ (Reachable.getMedian _ 0
      (Reachable.add _ 6 (Reachable.add _ 4 (Reachable.construct _ _)))))).2 (by decide)

/-- C20: on a container (so `_cnt` is at most the capacity), also with
`_cnt ≥ 1`, after `sort()` the prefix `_as[0 .. _cnt)` is ascending and a
permutation of `_ar[0 .. _cnt)`, so it is the list every ascending
rearrangement of those samples is; `_ar`, `_cnt` and `_idx` are as before. -/
theorem sort_correct (s : RunningMedian) (h : Valid s) :
    List.Sorted (· ≤ ·) ((sort s)._as.take s._cnt) ∧
    ((sort s)._as.take s._cnt).Perm (s._ar.take s._cnt) ∧
    (∀ l : List Int, List.Sorted (· ≤ ·) l → l.Perm (s._ar.take s._cnt) →
      l = (sort s)._as.take s._cnt) ∧
    ((sort s)._ar = s._ar ∧ (sort s)._cnt = s._cnt ∧ (sort s)._idx = s._idx) := by
  have ht := sort_take s h
  rw [ht]
  refine ⟨sorted_sorted s, sorted_perm s, ?_, rfl, rfl, rfl⟩
  intro l hl hp
  exact List.eq_of_perm_of_sorted (hp.trans (sorted_perm s).symm) hl (sorted_sorted s)

/-- Witness of C20: the slots 5, 3, 8, 1, 9 are sorted to 1, 3, 5, 8, 9. -/
theorem sort_correct_witness :
    (sort (addAll (construct 5 (fun _ => 0) (fun _ => 7)) [5, 3, 8, 1, 9]))._as
      = [1, 3, 5, 8, 9] ∧
    List.Sorted (· ≤ ·)
      ((sort (addAll (construct 5 (fun _ => 0) (fun _ => 7)) [5, 3, 8, 1, 9]))._as.take
        (addAll (construct 5 (fun _ => 0) (fun _ => 7)) [5, 3, 8, 1, 9])._cnt) :=
  ⟨by decide,
   (sort_correct (addAll (construct 5 (fun _ => 0) (fun _ => 7)) [5, 3, 8, 1, 9])
      (by decide)).1⟩

end RunningMedian

namespace DS3232RTC

/-! ## Claims about `DS3232RTC` -/

/-- C14: `setAlarm` with an Alarm-2 type (bit `0x80` of `alarmType` set) makes
the same calls of `writeRTC` whatever the seconds argument is, three of them,
to the registers `0x0B`, `0x0C`, `0x0D` in that order; with an Alarm-1 type it
makes four, to `0x07`, `0x08`, `0x09`, `0x0A` in that order. -/
theorem setAlarm_writes (alarmType seconds seconds2 minutes hours daydate : Nat) :
    (alarmType &&& 0x80 ≠ 0 →
      setAlarm alarmType seconds minutes hours daydate
        = setAlarm alarmType seconds2 minutes hours daydate ∧
      (setAlarm alarmType seconds minutes hours daydate).map Prod.fst = [0x0B, 0x0C, 0x0D]) ∧
    (alarmType &&& 0x80 = 0 →
      (setAlarm alarmType seconds minutes hours daydate).map Prod.fst
        = [0x07, 0x08, 0x09, 0x0A]) := by
  constructor
  · intro h2
    unfold setAlarm
    simp only [if_neg h2]
    exact ⟨trivial, rfl⟩
  · intro h1
    unfold setAlarm
    simp only [if_pos h1]
    rfl

/-- Witness of C14: `ALM2_MATCH_MINUTES = 0x8C` at 12:30 with seconds 0 and
with seconds 59, and `ALM1_MATCH_MINUTES = 0x0C` at 12:30:59. -/
theorem setAlarm_writes_witness :
    setAlarm 0x8C 0 30 12 1 = [(0x0B, 0x30), (0x0C, 0x92), (0x0D, 0x81)] ∧
    setAlarm 0x8C 0 30 12 1 = setAlarm 0x8C 59 30 12 1 ∧
    setAlarm 0x0C 59 30 12 1 = [(0x07, 0x59), (0x08, 0x30), (0x09, 0x92), (0x0A, 0x81)] :=
  ⟨by decide, ((setAlarm_writes 0x8C 0 59 30 12 1).1 (by decide)).1, by decide⟩

/-- The byte `setAlarm` sends to a day/date register (`0x0A` or `0x0D`) for a
day of the month 1..31 has bit 6 clear, whatever the alarm type. -/
theorem setAlarm_daydate_bit6 (alarmType seconds minutes hours daydate : Nat)
    (h1 : 1 ≤ daydate) (h2 : daydate ≤ 31) (w : RegWrite)
    (hw : w ∈ setAlarm alarmType seconds minutes hours daydate)
    (ha : w.1 = 0x0A ∨ w.1 = 0x0D) : w.2.testBit DYDT = false := by
  have key : ∀ d, 1 ≤ d → d ≤ 31 →
      (dec2bcd d).testBit DYDT = false ∧
      (((dec2bcd d) ||| _BV A1M4) % 256).testBit DYDT = false := by
    intro d hd1 hd2
    interval_cases d <;> decide
  obtain ⟨k1, k2⟩ := key daydate h1 h2
  unfold setAlarm at hw
  simp only [ALM1_SECONDS, ALM2_MINUTES] at hw
  split at hw
  · simp only [List.mem_cons, List.mem_singleton, List.not_mem_nil, or_false] at hw
    rcases hw with hw | hw | hw | hw <;> subst hw <;> simp at ha
    simp only []
    split <;> assumption
  · simp only [List.mem_cons, List.mem_singleton, List.not_mem_nil, or_false] at hw
    rcases hw with hw | hw | hw <;> subst hw <;> simp at ha
    simp only []
    split <;> assumption

/-- C15, the code at the match-day alarm types `ALM1_MATCH_DAY = 0x10` and
`ALM2_MATCH_DAY = 0x90` with day 1: bit 6 (`DYDT`) is set in the byte for the
hours register (`0x09`, `0x0C`), and the byte for the day/date register
(`0x0A`, `0x0D`) is `0x01`, with bit 6 clear. -/
theorem setAlarm_match_day :
    setAlarm 0x10 0 0 0 1 = [(0x07, 0x00), (0x08, 0x00), (0x09, 0x40), (0x0A, 0x01)] ∧
    setAlarm 0x90 0 0 0 1 = [(0x0B, 0x00), (0x0C, 0x40), (0x0D, 0x01)] ∧
    Nat.testBit 0x01 DYDT = false ∧ Nat.testBit 0x40 DYDT = true := by
  decide

/-- C16: for `alarmNumber` 1 or 2, `alarmInterrupt` writes to the control
register `0x0E` the byte it read from it with bit `alarmNumber - 1` set when
the interrupt is enabled and clear when it is not, and every other bit as it
was read. -/
theorem alarmInterrupt_bits (alarmNumber : Nat) (interruptEnabled : Bool) (controlReg : Nat)
    (hn : alarmNumber = 1 ∨ alarmNumber = 2) (hc : controlReg < 256) :
    ∃ w, alarmInterrupt alarmNumber interruptEnabled controlReg = some (0x0E, w) ∧
      w < 256 ∧
      ∀ i, w.testBit i =
        if i = alarmNumber - 1 then interruptEnabled else controlReg.testBit i := by
  have hhigh : ∀ i, 8 ≤ i → controlReg.testBit i = false := by
    intro i hi
    apply Nat.testBit_lt_two_pow
    calc controlReg < 2 ^ 8 := hc
      _ ≤ 2 ^ i := Nat.pow_le_pow_right (by decide) hi
  have hmask : ∀ k, k < 2 →
      alarmInterrupt (k + 1) interruptEnabled controlReg =
        some (0x0E, if interruptEnabled then (controlReg ||| 2 ^ k) % 2 ^ 8
          else (controlReg &&& ((2 ^ 16 - 1) ^^^ 2 ^ k)) % 2 ^ 8) := by
    intro k hk
    interval_cases k <;> rfl
  obtain ⟨k, hk, rfl⟩ : ∃ k, k < 2 ∧ alarmNumber = k + 1 := by
    rcases hn with h | h
    · exact ⟨0, by decide, h⟩
    · exact ⟨1, by decide, h⟩
  refine ⟨_, hmask k hk, ?_, ?_⟩
  · split <;> exact Nat.mod_lt _ (by decide)
  · intro i
    rw [Nat.add_sub_cancel]
    cases interruptEnabled
    · simp only [Bool.false_eq_true, if_false, Nat.testBit_mod_two_pow, Nat.testBit_and,
        Nat.testBit_xor, Nat.testBit_two_pow_sub_one, Nat.testBit_two_pow]
      by_cases hik : i = k
      · subst hik; simp
        omega
      · have hki : ¬ k = i := fun h => hik h.symm
        by_cases hi : i < 8
        · have : i < 16 := by omega
          simp [hik, hki, hi, this]
        · simp [hik, hi, hhigh i (by omega)]
    · simp only [if_true, Nat.testBit_mod_two_pow, Nat.testBit_or, Nat.testBit_two_pow]
      by_cases hik : i = k
      · subst hik
        have : i < 8 := by omega
        simp [this]
      · have hki : ¬ k = i := fun h => hik h.symm
        by_cases hi : i < 8
        · simp [hik, hki, hi]
        · simp [hik, hi, hhigh i (by omega)]

/-- Witness of C16: the control register reads `0x1C`; enabling alarm 1 writes
`0x1D` and disabling alarm 2 on `0xFF` writes `0xFD`. -/
theorem alarmInterrupt_bits_witness :
    alarmInterrupt 1 true 0x1C = some (0x0E, 0x1D) ∧
    alarmInterrupt 2 false 0xFF = some (0x0E, 0xFD) ∧
    ∃ w, alarmInterrupt 1 true 0x1C = some (0x0E, w) ∧ w < 256 ∧
      ∀ i, w.testBit i = if i = 1 - 1 then true else Nat.testBit 0x1C i :=
  ⟨by decide, by decide, alarmInterrupt_bits 1 true 0x1C (Or.inl rfl) (by decide)⟩

end DS3232RTC

namespace I2C_eeprom

/-! ## Claims about `I2C_eeprom` -/

theorem chunk_bounds (address length : Nat) (h : 0 < length) :
    1 ≤ chunk address length ∧ chunk address length ≤ length ∧
      chunk address length ≤ 30 ∧ chunk address length ≤ 64 - address % 64 := by
  unfold chunk I2C_EEPROM_PAGESIZE I2C_TWIBUFFERSIZE
  have : address % 64 < 64 := Nat.mod_lt _ (by decide)
  omega

theorem loop_zero (ack : Nat → Nat) (incr : Bool) (fuel k address : Nat) (buffer : List Nat) :
    _pageBlockLoop ack incr fuel k address buffer 0 = some (0, []) := by
  cases fuel <;> simp [_pageBlockLoop]

/-- One iteration of the loop of `_pageBlock`. -/
theorem loop_step (ack : Nat → Nat) (incr : Bool) (fuel k address : Nat) (buffer : List Nat)
    (length : Nat) (h : 0 < length) :
    _pageBlockLoop ack incr (fuel + 1) k address buffer length =
      if ack k ≠ 0 then some (ack k, [(address, buffer.take (chunk address length))])
      else
        match _pageBlockLoop ack incr fuel (k + 1) ((address + chunk address length) % 65536)
            (if incr then buffer.drop (chunk address length) else buffer)
            (length - chunk address length) with
        | none => none
        | some (rv, sent) => some (rv, (address, buffer.take (chunk address length)) :: sent) := by
  have hm : address % 64 < 64 := Nat.mod_lt _ (by decide)
  have e1 : (I2C_EEPROM_PAGESIZE - address % I2C_EEPROM_PAGESIZE) % 256 = 64 - address % 64 := by
    unfold I2C_EEPROM_PAGESIZE; omega
  have e2 : (min length (64 - address % 64)) % 256 = min length (64 - address % 64) := by
    omega
  have e3 : (min (min length (64 - address % 64)) I2C_TWIBUFFERSIZE) % 256
      = chunk address length := by
    unfold chunk I2C_TWIBUFFERSIZE I2C_EEPROM_PAGESIZE; omega
  rw [_pageBlockLoop]
  simp only [gt_iff_lt, h, if_true, e1, e2, e3, _WriteBlock]

/-- The loop of `_pageBlock` against the run in which every transmission is
acknowledged: it ends, its transmissions are the first ones of that run, and
it stops with the first status that is not 0. -/
theorem loop_status (ack : Nat → Nat) (incr : Bool) (fuel : Nat) :
    ∀ (k address : Nat) (buffer : List Nat) (length : Nat), length ≤ fuel →
      ∃ rv sent sent0,
        _pageBlockLoop ack incr fuel k address buffer length = some (rv, sent) ∧
        _pageBlockLoop (fun _ => 0) incr fuel k address buffer length = some (0, sent0) ∧
        (rv = 0 → sent = sent0 ∧ ∀ j, j < sent0.length → ack (k + j) = 0) ∧
        (rv ≠ 0 → ∃ j, j < sent0.length ∧ ack (k + j) = rv ∧
          (∀ i, i < j → ack (k + i) = 0) ∧ sent = sent0.take (j + 1)) := by
  induction fuel with
  | zero =>
    intro k address buffer length hl
    have : length = 0 := by omega
    subst this
    refine ⟨0, [], [], loop_zero _ _ _ _ _ _, loop_zero _ _ _ _ _ _, ?_, ?_⟩
    · intro _; exact ⟨rfl, fun j hj => by simp at hj⟩
    · intro h; exact absurd rfl h
  | succ fuel ih =>
    intro k address buffer length hl
    by_cases h0 : length = 0
    · subst h0
      refine ⟨0, [], [], loop_zero _ _ _ _ _ _, loop_zero _ _ _ _ _ _, ?_, ?_⟩
      · intro _; exact ⟨rfl, fun j hj => by simp at hj⟩
      · intro h; exact absurd rfl h
    · have hpos : 0 < length := Nat.pos_of_ne_zero h0
      obtain ⟨hc1, hc2, _, _⟩ := chunk_bounds address length hpos
      obtain ⟨rv, sent, sent0, e1, e2, h3, h4⟩ :=
        ih (k + 1) ((address + chunk address length) % 65536)
          (if incr then buffer.drop (chunk address length) else buffer)
          (length - chunk address length) (by omega)
      have ez : _pageBlockLoop (fun _ => 0) incr (fuel + 1) k address buffer length =
          some (0, (address, buffer.take (chunk address length)) :: sent0) := by
        rw [loop_step _ _ _ _ _ _ _ hpos, if_neg (by simp), e2]
      by_cases hk : ack k = 0
      · refine ⟨rv, (address, buffer.take (chunk address length)) :: sent,
          (address, buffer.take (chunk address length)) :: sent0, ?_, ez, ?_, ?_⟩
        · rw [loop_step _ _ _ _ _ _ _ hpos, if_neg (by simpa using hk), e1]
        · intro hrv
          obtain ⟨hs, ha⟩ := h3 hrv
          refine ⟨by rw [hs], ?_⟩
          intro j hj
          cases j with
          | zero => simpa using hk
          | succ j =>
            have := ha j (by simpa using hj)
            rwa [Nat.add_assoc, Nat.add_comm 1 j] at this
        · intro hrv
          obtain ⟨j, hj, haj, hlt, hs⟩ := h4 hrv
          refine ⟨j + 1, by simpa using hj, ?_, ?_, ?_⟩
          · rwa [Nat.add_assoc, Nat.add_comm 1 j] at haj
          · intro i hi
            cases i with
            | zero => simpa using hk
            | succ i =>
              have := hlt i (by omega)
              rwa [Nat.add_assoc, Nat.add_comm 1 i] at this
          · rw [hs]; rfl
      · refine ⟨ack k, [(address, buffer.take (chunk address length))],
          (address, buffer.take (chunk address length)) :: sent0, ?_, ez, ?_, ?_⟩
        · rw [loop_step _ _ _ _ _ _ _ hpos, if_pos hk]
        · intro hrv; exact absurd hrv hk
        · intro _
          exact ⟨0, by simp, rfl, fun i hi => by omega, by simp⟩

/-- C18: `writeBlock` (through `_pageBlock`) ends; it returns 0 exactly when
every transmission it made had status 0, and then it made all the
transmissions of the fully acknowledged run; otherwise it returns the first
status that is not 0 and the transmission with that status is the last one it
made. -/
theorem writeBlock_status (ack : Nat → Nat) (address : Nat) (buffer : List Nat)
    (length : Nat) :
    ∃ rv sent sent0,
      writeBlock ack address buffer length = some (rv, sent) ∧
      writeBlock (fun _ => 0) address buffer length = some (0, sent0) ∧
      (rv = 0 ↔ ∀ j, j < sent.length → ack j = 0) ∧
      (rv = 0 → sent = sent0) ∧
      (rv ≠ 0 → ∃ j, j < sent0.length ∧ ack j = rv ∧ (∀ i, i < j → ack i = 0) ∧
        sent = sent0.take (j + 1) ∧ sent.length = j + 1) := by
  obtain ⟨rv, sent, sent0, e1, e2, h3, h4⟩ :=
    loop_status ack true length 0 address buffer length (le_refl _)
  simp only [Nat.zero_add] at h3 h4
  refine ⟨rv, sent, sent0, e1, e2, ?_, fun h => (h3 h).1, ?_⟩
  · constructor
    · intro h
      obtain ⟨hs, ha⟩ := h3 h
      rw [hs]; exact ha
    · intro hall
      by_contra hrv
      obtain ⟨j, hj, haj, _, hs⟩ := h4 hrv
      have hlen : sent.length = j + 1 := by
        rw [hs, List.length_take]; omega
      have := hall j (by omega)
      rw [haj] at this
      exact hrv this
  · intro hrv
    obtain ⟨j, hj, haj, hlt, hs⟩ := h4 hrv
    refine ⟨j, hj, haj, hlt, hs, ?_⟩
    rw [hs, List.length_take]; omega

/-- Witness of C18: ten bytes from address 60 need two transmissions; when
the second one has status 3, `writeBlock` returns 3 after both, and when the
first one has status 2 it returns 2 after that one alone. -/
theorem writeBlock_status_witness :
    writeBlock (fun k => if k = 1 then 3 else 0) 60 [1, 2, 3, 4, 5, 6, 7, 8, 9, 10] 10
      = some (3, [(60, [1, 2, 3, 4]), (64, [5, 6, 7, 8, 9, 10])]) ∧
    writeBlock (fun k => if k = 0 then 2 else 0) 60 [1, 2, 3, 4, 5, 6, 7, 8, 9, 10] 10
      = some (2, [(60, [1, 2, 3, 4])]) ∧
    ∃ rv sent sent0,
      writeBlock (fun k => if k = 0 then 2 else 0) 60 [1, 2, 3, 4, 5, 6, 7, 8, 9, 10] 10
        = some (rv, sent) ∧
      writeBlock (fun _ => 0) 60 [1, 2, 3, 4, 5, 6, 7, 8, 9, 10] 10 = some (0, sent0) ∧
      (rv = 0 ↔ ∀ j, j < sent.length → (fun k => if k = 0 then 2 else 0) j = 0) ∧
      (rv = 0 → sent = sent0) ∧
      (rv ≠ 0 → ∃ j, j < sent0.length ∧ (fun k => if k = 0 then 2 else 0) j = rv ∧
        (∀ i, i < j → (fun k => if k = 0 then 2 else 0) i = 0) ∧
        sent = sent0.take (j + 1) ∧ sent.length = j + 1) :=
  ⟨by decide, by decide,
   writeBlock_status (fun k => if k = 0 then 2 else 0) 60 [1, 2, 3, 4, 5, 6, 7, 8, 9, 10] 10⟩

theorem cells_replicate (a c d : Nat) :
    cells (a, List.replicate c d) = (List.range c).map (fun i => (a + i, d)) := by
  unfold cells
  simp only [List.length_replicate]
  induction c generalizing a with
  | zero => simp
  | succ c ih =>
    rw [List.range'_succ, List.replicate_succ, List.zip_cons_cons, ih (a + 1),
      List.range_succ_eq_map, List.map_cons, List.map_map]
    simp only [Nat.add_zero, List.cons.injEq, true_and]
    apply List.map_congr_left
    intro i _
    simp only [Function.comp, Nat.succ_eq_add_one]
    rw [Nat.add_assoc, Nat.add_comm 1 i]

/-- The loop of `_pageBlock` as `setBlock` runs it, every transmission
acknowledged: the cells its transmissions are for. -/
theorem loop_setBlock (data fuel : Nat) :
    ∀ (k address length : Nat), length ≤ fuel → address < 65536 →
      ∃ sent,
        _pageBlockLoop (fun _ => 0) false fuel k address
          (List.replicate I2C_TWIBUFFERSIZE data) length = some (0, sent) ∧
        sent.flatMap cells
          = (List.range length).map (fun i => ((address + i) % 65536, data)) := by
  induction fuel with
  | zero =>
    intro k address length hl _
    have : length = 0 := by omega
    subst this
    exact ⟨[], loop_zero _ _ _ _ _ _, rfl⟩
  | succ fuel ih =>
    intro k address length hl ha
    by_cases h0 : length = 0
    · subst h0
      exact ⟨[], loop_zero _ _ _ _ _ _, rfl⟩
    · have hpos : 0 < length := Nat.pos_of_ne_zero h0
      obtain ⟨hc1, hc2, hc3, hc4⟩ := chunk_bounds address length hpos
      obtain ⟨sent, e, hcells⟩ :=
        ih (k + 1) ((address + chunk address length) % 65536)
          (length - chunk address length) (by omega) (Nat.mod_lt _ (by decide))
      refine ⟨(address, List.replicate (chunk address length) data) :: sent, ?_, ?_⟩
      · rw [loop_step _ _ _ _ _ _ _ hpos, if_neg (by simp)]
        simp only [Bool.false_eq_true, if_false, e, List.take_replicate]
        rw [Nat.min_eq_left (by unfold I2C_TWIBUFFERSIZE; omega)]
      · rw [List.flatMap_cons, hcells, cells_replicate]
        have hlen : length = chunk address length + (length - chunk address length) := by
          omega
        conv_rhs => rw [hlen, List.range_add, List.map_append, List.map_map]
        congr 1
        · apply List.map_congr_left
          intro i hi
          have hi1 : i < chunk address length := List.mem_range.mp hi
          have : address + i < 65536 := by omega
          rw [Nat.mod_eq_of_lt this]
        · apply List.map_congr_left
          intro i _
          simp only [Function.comp, Nat.mod_add_mod, Nat.add_assoc]

/-- C17: `setBlock(address, data, length)` with every transmission
acknowledged ends and returns 0, and the cells its transmissions are for, in
the order sent, are `address`, `address + 1`, ..., `address + length - 1`
(mod 2^16), each once, every one with the byte `data`. -/
theorem setBlock_cells (address data length : Nat) (ha : address < 65536) :
    ∃ sent,
      setBlock (fun _ => 0) address data length = some (0, sent) ∧
      sent.flatMap cells
        = (List.range length).map (fun i => ((address + i) % 65536, data)) :=
  loop_setBlock data length 0 address length (le_refl _) ha

/-- Witness of C17: ten bytes 7 from address 65530 go out as six bytes to
65530 and four to 0. -/
theorem setBlock_cells_witness :
    setBlock (fun _ => 0) 65530 7 10
      = some (0, [(65530, [7, 7, 7, 7, 7, 7]), (0, [7, 7, 7, 7])]) ∧
    ∃ sent,
      setBlock (fun _ => 0) 65530 7 10 = some (0, sent) ∧
      sent.flatMap cells
        = (List.range 10).map (fun i => ((65530 + i) % 65536, 7)) :=
  ⟨by decide, setBlock_cells 65530 7 10 (by decide)⟩

theorem scan_done (readBack : Nat → Nat) (l : List Nat) (r : Nat) :
    l.foldl (fun (st : Nat × Bool) i => if st.2 then st else (i, readBack i == 0x55))
      (r, true) = (r, true) := by
  induction l with
  | nil => rfl
  | cons a t ih => simpa using ih

theorem scan_from (readBack : Nat → Nat) (i : Nat) (hfirst : readBack i = 0x55) (n : Nat) :
    ∀ (a r : Nat), a ≤ i → i < a + n → (∀ j, a ≤ j → j < i → readBack j ≠ 0x55) →
      (List.range' a n).foldl
        (fun (st : Nat × Bool) i => if st.2 then st else (i, readBack i == 0x55))
        (r, false) = (i, true) := by
  induction n with
  | zero => intro a r h1 h2; omega
  | succ n ih =>
    intro a r h1 h2 hb
    rw [List.range'_succ, List.foldl_cons]
    by_cases hai : a = i
    · subst hai
      simp only [Bool.false_eq_true, if_false, hfirst, beq_self_eq_true]
      exact scan_done readBack _ _
    · have hne : readBack a ≠ 0x55 := hb a (le_refl _) (by omega)
      have hbeq : (readBack a == 0x55) = false := by simpa using hne
      simp only [Bool.false_eq_true, if_false, hbeq]
      exact ih (a + 1) a (by omega) (by omega) (fun j hj1 hj2 => hb j (by omega) hj2)

theorem scan_none (readBack : Nat → Nat) (n : Nat) :
    ∀ (a r : Nat), (∀ j, a ≤ j → j < a + (n + 1) → readBack j ≠ 0x55) →
      (List.range' a (n + 1)).foldl
        (fun (st : Nat × Bool) i => if st.2 then st else (i, readBack i == 0x55))
        (r, false) = (a + n, false) := by
  induction n with
  | zero =>
    intro a r hb
    have hne : readBack a ≠ 0x55 := hb a (le_refl _) (by omega)
    have hbeq : (readBack a == 0x55) = false := by simpa using hne
    simp [List.range'_succ, hbeq]
  | succ n ih =>
    intro a r hb
    have hne : readBack a ≠ 0x55 := hb a (le_refl _) (by omega)
    have hbeq : (readBack a == 0x55) = false := by simpa using hne
    rw [List.range'_succ, List.foldl_cons]
    simp only [Bool.false_eq_true, if_false, hbeq]
    rw [ih (a + 1) a (fun j hj1 hj2 => hb j (by omega) (by omega))]
    simp only [Prod.mk.injEq, and_true]
    omega

/-- The scan of `determineSize()` ends with `rv = i` when probe `i` is the
first that reads back `0x55`, and with `rv = 7` when none does. -/
theorem scan_first (readBack : Nat → Nat) :
    (∀ i, i ≤ 7 → readBack i = 0x55 → (∀ j, j < i → readBack j ≠ 0x55) →
      scan readBack = i) ∧
    ((∀ j, j ≤ 7 → readBack j ≠ 0x55) → scan readBack = 7) := by
  constructor
  · intro i hi hfirst hbefore
    unfold scan
    rw [List.range_eq_range',
      scan_from readBack i hfirst 8 0 0 (Nat.zero_le _) (by omega)
        (fun j _ hj => hbefore j hj)]
  · intro hnone
    unfold scan
    rw [List.range_eq_range',
      scan_none readBack 7 0 0 (fun j _ hj => hnone j (by omega))]

/-- What `determineSize()` returns in terms of the probe `i` that first reads
back `0x55`: `2 ^ (i - 1)` for `i` in 1..7, and no defined value for `i = 0`,
where the shift count `rv - 1` is `-1`. -/
theorem determineSize_detected (readBack : Nat → Nat) (i : Nat) (hi : i ≤ 7)
    (hfirst : readBack i = 0x55) (hbefore : ∀ j, j < i → readBack j ≠ 0x55) :
    determineSize readBack = if i = 0 then none else some (2 ^ (i - 1)) := by
  have hs := (scan_first readBack).1 i hi hfirst hbefore
  unfold determineSize
  rw [hs]
  interval_cases i <;> rfl

/-- C19, the code on a device whose first probe already reads back `0x55`:
the scan ends with `rv = 0`, the return expression is `0x01 << -1`, and
`determineSize()` has no defined value (not the 0 of the comment above it);
with the first fold at probe 1, 4 or 7 it returns 1, 8 or 64. -/
theorem determineSize_first_probe :
    scan (fun _ => 0x55) = 0 ∧
    shl 0x01 ((scan (fun _ => 0x55) : Int) - 1) = none ∧
    determineSize (fun _ => 0x55) = none ∧
    determineSize (fun i => if i = 1 then 0x55 else 0xAA) = some 1 ∧
    determineSize (fun i => if i = 4 then 0x55 else 0xAA) = some 8 ∧
    determineSize (fun i => if i = 7 then 0x55 else 0xAA) = some 64 := by
  decide

end I2C_eeprom

namespace RunningMedian

/-! ## Claims about the reachable states and the frame of the operations -/

theorem getMedian_state (s : RunningMedian) (value : Int) :
    (getMedian s value).2.2 = if s._cnt > 0 then sort s else s := by
  unfold getMedian; split <;> rfl

theorem getAverage_state (s : RunningMedian) (value : ℚ) : (getAverage s value).2.2 = s := by
  unfold getAverage; split <;> rfl

theorem getAverageN_state (s : RunningMedian) (n : Nat) (value : ℚ) :
    (getAverageN s n value).2.2 = if s._cnt > 0 ∧ n > 0 then sort s else s := by
  unfold getAverageN; split <;> rfl

theorem getHighest_state (s : RunningMedian) (value : Int) :
    (getHighest s value).2.2 = if s._cnt > 0 then sort s else s := by
  unfold getHighest; split <;> rfl

theorem getLowest_state (s : RunningMedian) (value : Int) :
    (getLowest s value).2.2 = if s._cnt > 0 then sort s else s := by
  unfold getLowest; split <;> rfl

theorem ring_sort (s : RunningMedian) (l : List Int) (h : Ring s l) : Ring (sort s) l := by
  obtain ⟨hv, h1, h2, h3⟩ := h
  exact ⟨valid_sort s hv, h1, h2, h3⟩

/-- Every state reached with the history `l` satisfies the ring invariant for
`l`, and has the capacity `N` as its size. -/
theorem history_ring (N : Nat) (h1 : 1 ≤ N) (h2 : N ≤ 255) (l : List Int)
    (s : RunningMedian) (h : History N l s) : Ring s l ∧ s._size = N := by
  induction h with
  | construct a0 s0 =>
    exact ⟨ring_empty _ (valid_construct N a0 s0 h1 h2) rfl rfl, Nat.mod_eq_of_lt (by omega)⟩
  | add l s v _ ih => exact ⟨ring_add s l v ih.1, ih.2⟩
  | clear l s _ ih => exact ⟨ring_empty _ (valid_clear s ih.1.1) rfl rfl, ih.2⟩
  | getMedian l s v _ ih =>
    rw [getMedian_state]; split
    · exact ⟨ring_sort s l ih.1, ih.2⟩
    · exact ih
  | getAverage l s v _ ih => rw [getAverage_state]; exact ih
  | getAverageN l s n v _ ih =>
    rw [getAverageN_state]; split
    · exact ⟨ring_sort s l ih.1, ih.2⟩
    · exact ih
  | getHighest l s v _ ih =>
    rw [getHighest_state]; split
    · exact ⟨ring_sort s l ih.1, ih.2⟩
    · exact ih
  | getLowest l s v _ ih =>
    rw [getLowest_state]; split
    · exact ⟨ring_sort s l ih.1, ih.2⟩
    · exact ih

/-- Every reachable state has a history. -/
theorem reachable_history (N : Nat) (s : RunningMedian) (h : Reachable N s) :
    ∃ l, History N l s := by
  induction h with
  | construct a0 s0 => exact ⟨[], History.construct a0 s0⟩
  | add s v _ ih => obtain ⟨l, hl⟩ := ih; exact ⟨_, History.add l s v hl⟩
  | clear s _ ih => obtain ⟨l, hl⟩ := ih; exact ⟨_, History.clear l s hl⟩
  | getMedian s v _ ih => obtain ⟨l, hl⟩ := ih; exact ⟨_, History.getMedian l s v hl⟩
  | getAverage s v _ ih => obtain ⟨l, hl⟩ := ih; exact ⟨_, History.getAverage l s v hl⟩
  | getAverageN s n v _ ih => obtain ⟨l, hl⟩ := ih; exact ⟨_, History.getAverageN l s n v hl⟩
  | getHighest s v _ ih => obtain ⟨l, hl⟩ := ih; exact ⟨_, History.getHighest l s v hl⟩
  | getLowest s v _ ih => obtain ⟨l, hl⟩ := ih; exact ⟨_, History.getLowest l s v hl⟩

/-- Every state with a history is reachable. -/
theorem history_reachable (N : Nat) (l : List Int) (s : RunningMedian) (h : History N l s) :
    Reachable N s := by
  induction h with
  | construct a0 s0 => exact Reachable.construct a0 s0
  | add l s v _ ih => exact Reachable.add s v ih
  | clear l s _ ih => exact Reachable.clear s ih
  | getMedian l s v _ ih => exact Reachable.getMedian s v ih
  | getAverage l s v _ ih => exact Reachable.getAverage s v ih
  | getAverageN l s n v _ ih => exact Reachable.getAverageN s n v ih
  | getHighest l s v _ ih => exact Reachable.getHighest s v ih
  | getLowest l s v _ ih => exact Reachable.getLowest s v ih

/-- C21: for a capacity `N` with `1 ≤ N ≤ 255`, every state reachable from the
construction by `add()`, `clear()` and the queries has `_cnt ≤ N` and
`_idx < N`, and `_ar` has `N` slots, so the store `_ar[_idx]` of the next
`add()` is inside the array and lands in slot `_idx`. -/
theorem reachable_bounds (N : Nat) (h1 : 1 ≤ N) (h2 : N ≤ 255) (s : RunningMedian)
    (h : Reachable N s) :
    s._cnt ≤ N ∧ s._idx < N ∧ s._ar.length = N ∧ s._idx < s._ar.length ∧
    ∀ v, (add s v)._ar.length = N ∧ (add s v)._ar[s._idx]? = some v := by
  obtain ⟨l, hl⟩ := reachable_history N s h
  obtain ⟨⟨hv, _⟩, hN⟩ := history_ring N h1 h2 l s hl
  obtain ⟨_, _, h3, _, h5, h6⟩ := hv
  refine ⟨by omega, by omega, by omega, by omega, ?_⟩
  intro v
  rw [add_ar]
  refine ⟨by rw [List.length_set]; omega, ?_⟩
  rw [List.getElem?_set_self (by omega)]

/-- Witness of C21: capacity 3 after the adds 4, 5, 6, 7 and a median query:
count 3, write index 1. -/
theorem reachable_bounds_witness :
    (getMedian (add (add (add (add (construct 3 (fun _ => 0) (fun _ => 0)) 4) 5) 6) 7)
      0).2.2._cnt = 3 ∧
    (getMedian (add (add (add (add (construct 3 (fun _ => 0) (fun _ => 0)) 4) 5) 6) 7)
      0).2.2._idx = 1 ∧
    (getMedian (add (add (add (add (construct 3 (fun _ => 0) (fun _ => 0)) 4) 5) 6) 7)
      0).2.2._cnt ≤ 3 ∧
    (getMedian (add (add (add (add (construct 3 (fun _ => 0) (fun _ => 0)) 4) 5) 6) 7)
      0).2.2._idx < 3 :=
  have h := reachable_bounds 3 (by decide) (by decide) _
    (Reachable.getMedian _ 0 (Reachable.add _ 7 (Reachable.add _ 6 (Reachable.add _ 5
      (Reachable.add _ 4 (Reachable.construct (fun _ => 0) (fun _ => 0)))))))
  ⟨by decide, by decide, h.1, h.2.1⟩

/-- C22: `add(v)` on a container with `_idx = w` puts `v` in slot `w` of `_ar`
and leaves every other slot, `_as` and `_size` as they were; `_idx` becomes
`(w + 1) mod _size` and `_cnt` becomes `min (_cnt + 1) _size`; so right after
it the newest sample is in slot `(_idx - 1) mod _size`. -/
theorem add_frame (s : RunningMedian) (v : Int) (h : Valid s) :
    (add s v)._ar[s._idx]? = some v ∧
    (∀ j, j ≠ s._idx → (add s v)._ar[j]? = s._ar[j]?) ∧
    (add s v)._ar.length = s._ar.length ∧
    (add s v)._idx = (s._idx + 1) % s._size ∧
    (add s v)._cnt = min (s._cnt + 1) s._size ∧
    (add s v)._size = s._size ∧ (add s v)._as = s._as ∧
    (((add s v)._idx : Int) - 1) % (s._size : Int) = (s._idx : Int) ∧
    (add s v)._ar[((((add s v)._idx : Int) - 1) % (s._size : Int)).toNat]? = some v := by
  have hc := add_cnt s v h
  have hi := add_idx s v h
  obtain ⟨h1, h2, h3, h4, h5, h6⟩ := h
  have hslot : (add s v)._ar[s._idx]? = some v := by
    rw [add_ar, List.getElem?_set_self (by omega)]
  have hprev : (((add s v)._idx : Int) - 1) % (s._size : Int) = (s._idx : Int) := by
    rw [hi]
    by_cases hw : s._idx + 1 = s._size
    · rw [if_pos hw]
      have e : ((0 : Nat) : Int) - 1 = (s._idx : Int) + (s._size : Int) * (-1) := by
        have : (s._size : Int) = (s._idx : Int) + 1 := by exact_mod_cast hw.symm
        rw [this]; push_cast; ring
      rw [e, Int.add_mul_emod_self_left]
      exact Int.emod_eq_of_lt (by omega) (by omega)
    · rw [if_neg hw]
      have e : ((s._idx + 1 : Nat) : Int) - 1 = (s._idx : Int) := by push_cast; ring
      rw [e]
      exact Int.emod_eq_of_lt (by omega) (by omega)
  refine ⟨hslot, ?_, ?_, ?_, hc, rfl, rfl, hprev, ?_⟩
  · intro j hj
    rw [add_ar, List.getElem?_set_ne (fun e => hj e.symm)]
  · rw [add_ar, List.length_set]
  · rw [hi]
    by_cases hw : s._idx + 1 = s._size
    · rw [if_pos hw, hw, Nat.mod_self]
    · rw [if_neg hw, Nat.mod_eq_of_lt (by omega)]
  · rw [hprev, Int.toNat_ofNat]
    exact hslot

/-- Witness of C22: a full container of capacity 3 with write index 2; adding
9 overwrites slot 2 alone and wraps the write index to 0. -/
theorem add_frame_witness :
    (addAll (construct 3 (fun _ => 0) (fun _ => 0)) [4, 5, 6, 7, 8])._idx = 2 ∧
    (add (addAll (construct 3 (fun _ => 0) (fun _ => 0)) [4, 5, 6, 7, 8]) 9)._ar = [7, 8, 9] ∧
    (add (addAll (construct 3 (fun _ => 0) (fun _ => 0)) [4, 5, 6, 7, 8]) 9)._idx = 0 ∧
    (add (addAll (construct 3 (fun _ => 0) (fun _ => 0)) [4, 5, 6, 7, 8]) 9)._idx
      = ((addAll (construct 3 (fun _ => 0) (fun _ => 0)) [4, 5, 6, 7, 8])._idx + 1)
        % (addAll (construct 3 (fun _ => 0) (fun _ => 0)) [4, 5, 6, 7, 8])._size :=
  ⟨by decide, by decide, by decide,
   (add_frame (addAll (construct 3 (fun _ => 0) (fun _ => 0)) [4, 5, 6, 7, 8]) 9
      (by decide)).2.2.2.1⟩

/-- C23: in every state, `getMedian`, `getAverage()`, `getAverage(n)`,
`getHighest` and `getLowest` hand back a state with `_ar`, `_cnt`, `_idx` and
`_size` as they were (only `_as` may differ); `getSize`, `getCount` and
`getStatus` return a value and no state. -/
theorem queries_frame (s : RunningMedian) (value : Int) (fvalue : ℚ) (n : Nat) :
    ((getMedian s value).2.2._ar = s._ar ∧ (getMedian s value).2.2._cnt = s._cnt ∧
      (getMedian s value).2.2._idx = s._idx ∧ (getMedian s value).2.2._size = s._size) ∧
    ((getAverage s fvalue).2.2._ar = s._ar ∧ (getAverage s fvalue).2.2._cnt = s._cnt ∧
      (getAverage s fvalue).2.2._idx = s._idx ∧ (getAverage s fvalue).2.2._size = s._size ∧
      (getAverage s fvalue).2.2._as = s._as) ∧
    ((getAverageN s n fvalue).2.2._ar = s._ar ∧ (getAverageN s n fvalue).2.2._cnt = s._cnt ∧
      (getAverageN s n fvalue).2.2._idx = s._idx ∧
      (getAverageN s n fvalue).2.2._size = s._size) ∧
    ((getHighest s value).2.2._ar = s._ar ∧ (getHighest s value).2.2._cnt = s._cnt ∧
      (getHighest s value).2.2._idx = s._idx ∧ (getHighest s value).2.2._size = s._size) ∧
    ((getLowest s value).2.2._ar = s._ar ∧ (getLowest s value).2.2._cnt = s._cnt ∧
      (getLowest s value).2.2._idx = s._idx ∧ (getLowest s value).2.2._size = s._size) := by
  rw [getMedian_state, getAverage_state, getAverageN_state, getHighest_state,
    getLowest_state]
  refine ⟨?_, ⟨rfl, rfl, rfl, rfl, rfl⟩, ?_, ?_, ?_⟩ <;>
    (split <;> exact ⟨rfl, rfl, rfl, rfl⟩)

/-- C24: two containers with the same `_cnt` and the same slots
`_ar[0 .. _cnt)`, whatever their other slots of `_ar`, their `_as` and their
`_idx` hold (and also when their sizes differ), give the same status and the same value to `getMedian`,
`getAverage()`, `getAverage(n)`, `getHighest`, `getLowest`, `getCount` and
`getStatus`. -/
theorem stale_not_read (s t : RunningMedian) (value : Int) (fvalue : ℚ) (n : Nat)
    (hs : Valid s) (ht : Valid t) (hcnt : s._cnt = t._cnt)
    (hsam : s._ar.take s._cnt = t._ar.take t._cnt) :
    ((getMedian s value).1 = (getMedian t value).1 ∧
      (getMedian s value).2.1 = (getMedian t value).2.1) ∧
    ((getAverage s fvalue).1 = (getAverage t fvalue).1 ∧
      (getAverage s fvalue).2.1 = (getAverage t fvalue).2.1) ∧
    ((getAverageN s n fvalue).1 = (getAverageN t n fvalue).1 ∧
      (getAverageN s n fvalue).2.1 = (getAverageN t n fvalue).2.1) ∧
    ((getHighest s value).1 = (getHighest t value).1 ∧
      (getHighest s value).2.1 = (getHighest t value).2.1) ∧
    ((getLowest s value).1 = (getLowest t value).1 ∧
      (getLowest s value).2.1 = (getLowest t value).2.1) ∧
    getCount s = getCount t ∧ getStatus s = getStatus t := by
  have hsamples : samples s = samples t := hsam
  have hsorted : sorted s = sorted t := by unfold sorted; rw [hsamples]
  have hstatus : getStatus s = getStatus t := by unfold getStatus; rw [hcnt]
  by_cases hc : s._cnt = 0
  · have hc1 : t._cnt = 0 := by omega
    rw [getMedian_empty s _ hc, getMedian_empty t _ hc1, getAverage_empty s _ hc,
      getAverage_empty t _ hc1, getAverageN_nok s n _ (Or.inl hc),
      getAverageN_nok t n _ (Or.inl hc1), getHighest_empty s _ hc, getHighest_empty t _ hc1,
      getLowest_empty s _ hc, getLowest_empty t _ hc1]
    exact ⟨⟨rfl, rfl⟩, ⟨rfl, rfl⟩, ⟨rfl, rfl⟩, ⟨rfl, rfl⟩, ⟨rfl, rfl⟩, hcnt, hstatus⟩
  · have hp : 0 < s._cnt := Nat.pos_of_ne_zero hc
    have hp1 : 0 < t._cnt := by omega
    rw [getMedian_eq s _ hs hp, getMedian_eq t _ ht hp1, getAverage_eq s _ hs hp,
      getAverage_eq t _ ht hp1, getHighest_eq s _ hs hp, getHighest_eq t _ ht hp1,
      getLowest_eq s _ hs hp, getLowest_eq t _ ht hp1, hsorted, hsamples, hcnt]
    refine ⟨⟨rfl, rfl⟩, ⟨rfl, rfl⟩, ?_, ⟨rfl, rfl⟩, ⟨rfl, rfl⟩, hcnt, hstatus⟩
    by_cases hn : n = 0
    · rw [getAverageN_nok s n _ (Or.inr hn), getAverageN_nok t n _ (Or.inr hn)]
      exact ⟨rfl, rfl⟩
    · have hnp : 0 < n := Nat.pos_of_ne_zero hn
      rw [getAverageN_eq s n _ hs hp hnp, getAverageN_eq t n _ ht hp1 hnp, hsorted, hcnt]
      exact ⟨rfl, rfl⟩

/-- Witness of C24: two containers of capacity 4 with count 2 and the slots
5, 3 in front, different stale slots, scratch arrays and write indices; both
have median 5. -/
theorem stale_not_read_witness :
    (getMedian ⟨4, 2, 2, [5, 3, 100, 200], [0, 0, 0, 0]⟩ 0).2.1 = 5 ∧
    (getMedian ⟨4, 2, 2, [5, 3, 100, 200], [0, 0, 0, 0]⟩ 0).2.1
      = (getMedian ⟨4, 2, 0, [5, 3, -7, 9], [1, 2, 3, 4]⟩ 0).2.1 :=
  ⟨by decide,
   (stale_not_read ⟨4, 2, 2, [5, 3, 100, 200], [0, 0, 0, 0]⟩ ⟨4, 2, 0, [5, 3, -7, 9], [1, 2, 3, 4]⟩
      0 0 1 (by decide) (by decide) rfl (by decide)).1.2⟩

/-- C27: for a capacity `N` with `1 ≤ N ≤ 255`, every reachable state with
`_cnt < N` has `_idx = _cnt`; in such a state the slots `_ar[0 .. _cnt)` are
the samples added since the construction or the last `clear()`, in the order
they were added. -/
theorem filling_slots (N : Nat) (h1 : 1 ≤ N) (h2 : N ≤ 255) (s : RunningMedian) :
    (Reachable N s → s._cnt < N → s._idx = s._cnt) ∧
    (∀ l, History N l s → s._cnt < N →
      s._idx = s._cnt ∧ l.length = s._cnt ∧ s._ar.take s._cnt = l) := by
  have key : ∀ l, History N l s → s._cnt < N →
      s._idx = s._cnt ∧ l.length = s._cnt ∧ s._ar.take s._cnt = l := by
    intro l hl hlt
    obtain ⟨⟨_, hfill, hcnt, hwin⟩, hN⟩ := history_ring N h1 h2 l s hl
    have hlt1 : s._cnt < s._size := by omega
    have hlen : l.length = s._cnt := by omega
    refine ⟨hfill hlt1, hlen, ?_⟩
    rw [window, if_pos hlt1] at hwin
    rw [hwin, Nat.sub_eq_zero_of_le (by omega), List.drop_zero]
  refine ⟨?_, key⟩
  intro hr hlt
  obtain ⟨l, hl⟩ := reachable_history N s hr
  exact (key l hl hlt).1

/-- Witness of C27: capacity 3 filled with 4, 5, 6, cleared, then given 9 and
8: count 2, write index 2, and the first two slots are 9, 8. -/
theorem filling_slots_witness :
    (add (add (clear (add (add (add (construct 3 (fun _ => 0) (fun _ => 0)) 4) 5) 6)) 9)
      8)._idx = 2 ∧
    (add (add (clear (add (add (add (construct 3 (fun _ => 0) (fun _ => 0)) 4) 5) 6)) 9)
      8)._ar = [9, 8, 6] ∧
    (add (add (clear (add (add (add (construct 3 (fun _ => 0) (fun _ => 0)) 4) 5) 6)) 9)
      8)._idx
      = (add (add (clear (add (add (add (construct 3 (fun _ => 0) (fun _ => 0)) 4) 5) 6)) 9)
        8)._cnt :=
  ⟨by decide, by decide,
   (filling_slots 3 (by decide) (by decide) _).1
     (Reachable.add _ 8 (Reachable.add _ 9 (Reachable.clear _ (Reachable.add _ 6
       (Reachable.add _ 5 (Reachable.add _ 4
         (Reachable.construct (fun _ => 0) (fun _ => 0)))))))) (by decide)⟩

end RunningMedian

namespace DS3232RTC

/-- C26: for every `n` in 0..99, `dec2bcd n` is the packed BCD byte
`16 * (n / 10) + n % 10` (below 256, so the 8-bit result loses nothing) and
`bcd2dec (dec2bcd n) = n`; these are the bytes `setAlarm` sends for its four
time fields when no mask bit is set. -/
theorem bcd_roundtrip (n : Nat) (h : n ≤ 99) :
    dec2bcd n = 16 * (n / 10) + n % 10 ∧ dec2bcd n < 256 ∧ bcd2dec (dec2bcd n) = n ∧
    (∀ seconds minutes hours daydate, setAlarm 0x00 seconds minutes hours daydate =
      [(0x07, dec2bcd seconds), (0x08, dec2bcd minutes), (0x09, dec2bcd hours),
        (0x0A, dec2bcd daydate)]) := by
  refine ⟨?_, ?_, ?_, fun _ _ _ _ => rfl⟩
  · unfold dec2bcd
    rw [Nat.mod_eq_of_lt (by omega)]
    omega
  · unfold dec2bcd
    exact Nat.mod_lt _ (by decide)
  · interval_cases n <;> decide

/-- Witness of C26: 59 is packed as `0x59` and unpacked to 59. -/
theorem bcd_roundtrip_witness :
    dec2bcd 59 = 0x59 ∧ bcd2dec 0x59 = 59 ∧ bcd2dec (dec2bcd 59) = 59 :=
  ⟨by decide, by decide, (bcd_roundtrip 59 (by decide)).2.2.1⟩

end DS3232RTC

namespace I2C_eeprom

/-- The loop of `_pageBlock` with every transmission acknowledged and a
buffer that holds the bytes it reads: it ends with 0, and its transmissions
have 1..30 bytes each, stay inside a 64-byte page, follow one another from
`address` on and carry `length` bytes in all. -/
theorem loop_chunks (incr : Bool) (fuel : Nat) :
    ∀ (k address : Nat) (buffer : List Nat) (length : Nat), length ≤ fuel →
      (incr = true → length ≤ buffer.length) →
      (incr = false → I2C_TWIBUFFERSIZE ≤ buffer.length) →
      ∃ sent,
        _pageBlockLoop (fun _ => 0) incr fuel k address buffer length = some (0, sent) ∧
        (∀ t, t ∈ sent →
          1 ≤ t.2.length ∧ t.2.length ≤ I2C_TWIBUFFERSIZE ∧
          t.2.length ≤ I2C_EEPROM_PAGESIZE - t.1 % I2C_EEPROM_PAGESIZE) ∧
        contiguous address sent = true ∧
        (sent.map (fun t => t.2.length)).sum = length := by
  induction fuel with
  | zero =>
    intro k address buffer length hl _ _
    have : length = 0 := by omega
    subst this
    exact ⟨[], loop_zero _ _ _ _ _ _, fun t ht => by simp at ht, rfl, rfl⟩
  | succ fuel ih =>
    intro k address buffer length hl hb1 hb2
    by_cases h0 : length = 0
    · subst h0
      exact ⟨[], loop_zero _ _ _ _ _ _, fun t ht => by simp at ht, rfl, rfl⟩
    · have hpos : 0 < length := Nat.pos_of_ne_zero h0
      obtain ⟨hc1, hc2, hc3, hc4⟩ := chunk_bounds address length hpos
      have htake : (buffer.take (chunk address length)).length = chunk address length := by
        rw [List.length_take]
        cases incr with
        | true => have := hb1 rfl; omega
        | false => have := hb2 rfl; unfold I2C_TWIBUFFERSIZE at this; omega
      obtain ⟨sent, e, hall, hcont, hsum⟩ :=
        ih (k + 1) ((address + chunk address length) % 65536)
          (if incr then buffer.drop (chunk address length) else buffer)
          (length - chunk address length) (by omega)
          (by
            intro hi
            rw [if_pos hi, List.length_drop]
            have := hb1 hi
            omega)
          (by
            intro hi
            rw [hi] at hb2 ⊢
            simpa using hb2 rfl)
      refine ⟨(address, buffer.take (chunk address length)) :: sent, ?_, ?_, ?_, ?_⟩
      · rw [loop_step _ _ _ _ _ _ _ hpos, if_neg (by simp), e]
      · intro t ht
        rcases List.mem_cons.mp ht with ht | ht
        · subst ht
          simp only [htake]
          unfold I2C_TWIBUFFERSIZE I2C_EEPROM_PAGESIZE
          exact ⟨hc1, hc3, hc4⟩
        · exact hall t ht
      · simp only [contiguous, beq_self_eq_true, Bool.true_and, htake]
        exact hcont
      · simp only [List.map_cons, List.sum_cons, htake, hsum]
        omega

/-- C25: for every address and length, with every transmission acknowledged
and a buffer that holds the bytes to send, `_pageBlock` ends with 0; each of
its transmissions has between 1 and 30 bytes and at most the
`64 - address mod 64` bytes left in its page (the precondition of
`_WriteBlock`); the transmissions follow one another from `address` on, their
lengths add up to `length`, and there is at least one when `length > 0`. -/
theorem pageBlock_chunks (address length : Nat) (buffer : List Nat) (incrBuffer : Bool)
    (hbuf : if incrBuffer then length ≤ buffer.length
      else I2C_TWIBUFFERSIZE ≤ buffer.length) :
    ∃ sent,
      _pageBlock (fun _ => 0) address buffer length incrBuffer = some (0, sent) ∧
      (∀ t, t ∈ sent →
        1 ≤ t.2.length ∧ t.2.length ≤ I2C_TWIBUFFERSIZE ∧
        t.2.length ≤ I2C_EEPROM_PAGESIZE - t.1 % I2C_EEPROM_PAGESIZE ∧
        t.2.length ≤ I2C_EEPROM_PAGESIZE) ∧
      contiguous address sent = true ∧
      (sent.map (fun t => t.2.length)).sum = length ∧
      (0 < length → sent ≠ []) := by
  obtain ⟨sent, e, hall, hcont, hsum⟩ :=
    loop_chunks incrBuffer length 0 address buffer length (le_refl _)
      (by intro hi; rw [if_pos hi] at hbuf; exact hbuf)
      (by intro hi; rw [hi] at hbuf; simpa using hbuf)
  refine ⟨sent, e, ?_, hcont, hsum, ?_⟩
  · intro t ht
    obtain ⟨a1, a2, a3⟩ := hall t ht
    exact ⟨a1, a2, a3, le_trans a3 (Nat.sub_le _ _)⟩
  · intro hpos hnil
    rw [hnil] at hsum
    simp at hsum
    omega

/-- Witness of C25: forty bytes from address 60 go out as 4 bytes to 60 (up to
the page end), 30 bytes to 64 and 6 bytes to 94. -/
theorem pageBlock_chunks_witness :
    (_pageBlock (fun _ => 0) 60 (List.replicate 30 7) 40 false).map
        (fun r => r.2.map (fun t => (t.1, t.2.length)))
      = some [(60, 4), (64, 30), (94, 6)] ∧
    ∃ sent,
      _pageBlock (fun _ => 0) 60 (List.replicate 30 7) 40 false = some (0, sent) ∧
      (∀ t, t ∈ sent →
        1 ≤ t.2.length ∧ t.2.length ≤ I2C_TWIBUFFERSIZE ∧
        t.2.length ≤ I2C_EEPROM_PAGESIZE - t.1 % I2C_EEPROM_PAGESIZE ∧
        t.2.length ≤ I2C_EEPROM_PAGESIZE) ∧
      contiguous 60 sent = true ∧
      (sent.map (fun t => t.2.length)).sum = 40 ∧
      (0 < 40 → sent ≠ []) :=
  ⟨by decide, pageBlock_chunks 60 40 (List.replicate 30 7) false (by decide)⟩

end I2C_eeprom
